import Mathlib

/-!
Verification development for the weekly scheduling engine in week-core.js.

The engine is embedded shallowly:
  * minutes are `Int` (the JS bitwise coercion is modelled by `toInt32`),
  * a week of ranges is a total function `Fin 7 → List Range`,
  * the slot grid is a total function `Fin 7 → Nat → Option String`
    (a cell holds the claiming task key, or none),
  * JS objects used as string-keyed dictionaries are association lists
    (`JsObj`), preserving key-presence so that deletion of emptied
    mappings is observable,
  * the wall-clock dependent parts (week/month/date key strings, the
    resolved target day of a today-scope save) are supplied by a
    `WeekCtx` record, exactly the values the source reads.

JS Array.prototype.sort is stable (ES2019); it is embedded as a stable
insertion sort on the comparator key.
-/

namespace Chrono

/-- Signed 32-bit truncation: the effect of the JS coercion (x | 0) on an integer. -/
def toInt32 (n : Int) : Int := (n + 2147483648).emod 4294967296 - 2147483648

/-- Math.round(m / 15) * 15: round a minute value to the nearest multiple of 15
(halves round up), as in the source helper round15. -/
def round15 (m : Int) : Int := ((2 * m + 15) / 30) * 15

/-- Math.max(0, Math.min(96, Math.round(m / 15))): minute value to slot index,
clamped into the closed interval from 0 to 96, as in the source helper minsToSlot. -/
def minsToSlot (m : Int) : Nat := (max 0 (min 96 ((2 * m + 15) / 30))).toNat

/-- A time range within a day, in minutes. -/
structure Range where
  startMin : Int
  endMin : Int
deriving DecidableEq

/-- One task's ranges for each of the 7 days of a week (Sunday-first). -/
abbrev WeekRanges := Fin 7 → List Range

/-- blankWeekRanges from the source: 7 empty per-day lists. -/
def blankWeekRanges : WeekRanges := fun _ => []

/-- The slot grid: day, then slot index, to the claiming task key (none for empty).
Slot indices are unbounded naturals; the engine only ever writes indices below 96. -/
abbrev Grid := Fin 7 → Nat → Option String

/-- blankWeekSlots from the source: the all-empty grid. -/
def blankWeekSlots : Grid := fun _ _ => none

/-! ### JS objects as string-keyed association lists -/

/-- A JS object used as a dictionary from strings to values. -/
abbrev JsObj (α : Type) := List (String × α)

/-- Property read o[k]: the first binding of key k, if any. -/
def jGet {α : Type} (o : JsObj α) (k : String) : Option α :=
  (o.find? (fun p => decide (p.1 = k))).map Prod.snd

/-- Property write o[k] = v: overwrite in place if present, else append. -/
def jSet {α : Type} (o : JsObj α) (k : String) (v : α) : JsObj α :=
  if o.any (fun p => decide (p.1 = k)) then
    o.map (fun p => if p.1 = k then (k, v) else p)
  else o ++ [(k, v)]

/-- Property delete: delete o[k]. -/
def jDel {α : Type} (o : JsObj α) (k : String) : JsObj α :=
  o.filter (fun p => decide (¬ p.1 = k))

/-- Optional chained read o[a]?.[b]. -/
def jGet2 {α : Type} (o : JsObj (JsObj α)) (a b : String) : Option α :=
  match jGet o a with
  | none => none
  | some m => jGet m b

/-- o[a] = o[a] || followed by o[a][b] = v. -/
def jSet2 {α : Type} (o : JsObj (JsObj α)) (a b : String) (v : α) : JsObj (JsObj α) :=
  jSet o a (jSet ((jGet o a).getD []) b v)

/-- o[a] = o[a] || (an empty object): used by the order-stamp bookkeeping. -/
def jEnsure {α : Type} (o : JsObj (JsObj α)) (a : String) : JsObj (JsObj α) :=
  jSet o a ((jGet o a).getD [])

/-- delete o[a][b], and delete o[a] entirely when it becomes empty. -/
def jDel2 {α : Type} (o : JsObj (JsObj α)) (a b : String) : JsObj (JsObj α) :=
  match jGet o a with
  | none => o
  | some m =>
    let m' := jDel m b
    if m'.isEmpty then jDel o a else jSet o a m'

/-! ### The Range Store and the visible-week context -/

/-- The save scopes of the engine. -/
inductive Scope where
  | recurring
  | week
  | month
  | today
deriving DecidableEq

/-- The persistent state of the engine: task catalog keys, the recurring
template EXACT, the three exception layers, the order stamps, the save
counter and the advisory last-scope map. -/
structure Store where
  tasks : List String
  EXACT : JsObj WeekRanges
  byDate : JsObj (JsObj (List Range))
  byWeek : JsObj (JsObj WeekRanges)
  byMonth : JsObj (JsObj WeekRanges)
  orderRecurring : JsObj Nat
  orderWeek : JsObj (JsObj Nat)
  orderMonth : JsObj (JsObj Nat)
  saveSeq : Nat
  lastScope : JsObj Scope

/-- The wall-clock dependent values the engine derives from the visible week:
the week key, month key, the date key of each weekday, the resolved target
weekday index of a today-scope save, and the date key of the day after the
resolved target date. -/
structure WeekCtx where
  wkKey : String
  moKey : String
  dateKey : Fin 7 → String
  todayIndex : Fin 7
  nextDateKey : String

/-- deepCopyWeek from the source, applied to a possibly-missing week:
value semantics make the copy itself the identity; a missing week yields
7 empty day lists. -/
def deepCopyWeek (w : Option WeekRanges) : WeekRanges :=
  fun d => match w with
  | some f => f d
  | none => []

/-- effectiveExactForTask: start from the recurring template, overwrite
wholesale with the month override then the week override when present,
then per day overwrite with that date's override when present. -/
def effectiveExactForTask (st : Store) (ctx : WeekCtx) (taskKey : String) : WeekRanges :=
  let eff0 := deepCopyWeek (jGet st.EXACT taskKey)
  let weekOverride := jGet2 st.byWeek ctx.wkKey taskKey
  let monthOverride := jGet2 st.byMonth ctx.moKey taskKey
  let eff1 := match monthOverride with
    | some w => deepCopyWeek (some w)
    | none => eff0
  let eff2 := match weekOverride with
    | some w => deepCopyWeek (some w)
    | none => eff1
  fun d => match jGet2 st.byDate (ctx.dateKey d) taskKey with
    | some l => l.map (fun r => { startMin := r.startMin, endMin := r.endMin })
    | none => eff2 d

/-- One pass of the inner fill loop of applyRangesToSlots: set every empty
cell of day d with slot index in the half-open interval from lo to hi. -/
def fillRun (cat : String) (d : Fin 7) (lo hi : Nat) (g : Grid) : Grid :=
  fun d' s => if d' = d ∧ lo ≤ s ∧ s < hi ∧ g d' s = none then some cat else g d' s

/-- The body of applyRangesToSlots for one range: skip zero-length rounded
ranges, fill forward ranges, split wrapped ranges across midnight. -/
def applyRange (cat : String) (d : Fin 7) (R : Range) (g : Grid) : Grid :=
  let a := round15 R.startMin
  let b := round15 R.endMin
  if b = a then g
  else if b > a then
    fillRun cat d (minsToSlot a) (minsToSlot b) g
  else
    fillRun cat (d + 1) (minsToSlot 0) (minsToSlot b)
      (fillRun cat d (minsToSlot a) (minsToSlot (24 * 60)) g)

/-- applyRangesToSlots: apply a task's week of ranges into the grid,
day by day and range by range, never displacing an existing claim. -/
def applyRangesToSlots (cat : String) (exact : WeekRanges) (g : Grid) : Grid :=
  (List.finRange 7).foldl (fun g d => (exact d).foldl (fun g R => applyRange cat d R g) g) g

/-! ### Stable sorting (JS Array.prototype.sort with a numeric comparator) -/

/-- Insert x into a key-sorted list, before the first element whose key is
not smaller: earlier-submitted elements stay before equal-keyed later ones. -/
def insertSorted {α : Type} (key : α → Int) (x : α) : List α → List α
  | [] => [x]
  | y :: ys => if key y < key x then y :: insertSorted key x ys else x :: y :: ys

/-- Stable sort by an integer key: the embedding of the stable JS
Array.prototype.sort with comparator key a minus key b. -/
def stableSortBy {α : Type} (key : α → Int) : List α → List α
  | [] => []
  | x :: xs => insertSorted key x (stableSortBy key xs)

/-- seqForTask from the grid builders: the defined order stamps among the
visible week's week key, month key and the recurring scope, ascending, the
first one, defaulting to 1e9. -/
def seqForTask (st : Store) (ctx : WeekCtx) (taskKey : String) : Nat :=
  let seqs := [jGet2 st.orderWeek ctx.wkKey taskKey,
               jGet2 st.orderMonth ctx.moKey taskKey,
               jGet st.orderRecurring taskKey].filterMap id
  (stableSortBy (fun n : Nat => (n : Int)) seqs).headD 1000000000

/-- The task keys of the catalog, sorted by effective priority sequence. -/
def orderedTasks (st : Store) (ctx : WeekCtx) : List String :=
  stableSortBy (fun k => (seqForTask st ctx k : Int)) st.tasks

/-- rebuildSlotsForVisibleWeek: apply every task's effective ranges into a
blank grid in ascending effective-sequence order. -/
def rebuildSlotsForVisibleWeek (st : Store) (ctx : WeekCtx) : Grid :=
  (orderedTasks st ctx).foldl
    (fun g key => applyRangesToSlots key (effectiveExactForTask st ctx key) g)
    blankWeekSlots

/-- buildOccupancyMap: like the rebuild, but skipping the task being saved
so it may freely reclaim its own slots. -/
def buildOccupancyMap (st : Store) (ctx : WeekCtx) (excludeTaskKey : String) : Grid :=
  (orderedTasks st ctx).foldl
    (fun g key =>
      if key = excludeTaskKey then g
      else applyRangesToSlots key (effectiveExactForTask st ctx key) g)
    blankWeekSlots

/-! ### Normalize and clip (the save path) -/

/-- Append a range to one day of a week of ranges. -/
def pushDay (w : WeekRanges) (d : Fin 7) (r : Range) : WeekRanges :=
  Function.update w d (w d ++ [r])

/-- Step 1 of normalizeAndClip, for one submitted range of day d: coerce to
32-bit, keep rounded forward ranges, split wrapped ranges into a tail on
day d and a head on day d+1, discard ranges whose rounded endpoints meet. -/
def normStep (d : Fin 7) (acc : WeekRanges) (r : Range) : WeekRanges :=
  let s := toInt32 r.startMin
  let e := toInt32 r.endMin
  if e > s then
    let s' := round15 s
    let e' := round15 e
    if e' > s' then pushDay acc d { startMin := s', endMin := e' } else acc
  else if e < s then
    let s1 := round15 s
    let e1 := round15 (24 * 60)
    let acc1 := if e1 > s1 then pushDay acc d { startMin := s1, endMin := e1 } else acc
    let s2 := round15 0
    let e2 := round15 e
    if e2 > s2 then pushDay acc1 (d + 1) { startMin := s2, endMin := e2 } else acc1
  else acc

/-- Step 1 of normalizeAndClip over the whole submitted week. -/
def normalizeWeek (x : WeekRanges) : WeekRanges :=
  (List.finRange 7).foldl (fun acc d => (x d).foldl (normStep d) acc) blankWeekRanges

/-- The overnight flag recorded during step 1: some submitted range wraps
past midnight after the 32-bit coercion. -/
def hadOvernightB (x : WeekRanges) : Bool :=
  (List.finRange 7).any (fun d => (x d).any (fun r => decide (toInt32 r.endMin < toInt32 r.startMin)))

/-- Requested-slot test of the clip step: some normalized range of the day
covers slot t. -/
def coversB (rs : List Range) (t : Nat) : Bool :=
  rs.any (fun r => decide (minsToSlot r.startMin ≤ t ∧ t < minsToSlot r.endMin))

/-- A slot can be claimed: it is requested and is free or already owned by
the task being saved. -/
def okSlot (occd : Nat → Option String) (taskKey : String) (norm_d : List Range) (t : Nat) : Bool :=
  coversB norm_d t && decide (occd t = none ∨ occd t = some taskKey)

/-- One step of the left-to-right sweep: slot s is claimable, so either
extend the run in progress (the head of the reversed run list) or open a
new run. -/
def addSlot (runs : List Range) (s : Nat) : List Range :=
  match runs with
  | [] => [{ startMin := 15 * s, endMin := 15 * s + 15 }]
  | r :: rest =>
    if r.endMin = 15 * s then { startMin := r.startMin, endMin := 15 * s + 15 } :: rest
    else { startMin := 15 * s, endMin := 15 * s + 15 } :: r :: rest

/-- The sweep of the day's 96 slots: maximal contiguous runs of claimable
slots, in increasing order, as minute ranges. -/
def sweepRuns (ok : Nat → Bool) : List Range :=
  ((List.range 96).foldl (fun runs s => if ok s then addSlot runs s else runs) []).reverse

/-- The merge loop of normalizeAndClip, carried on a reversed accumulator:
a range touching or overlapping the most recent output range extends it to
the larger end, otherwise it is appended. -/
def mergeGo : List Range → List Range → List Range
  | acc, [] => acc.reverse
  | [], r :: rest => mergeGo [r] rest
  | last :: acc, r :: rest =>
    if r.startMin ≤ last.endMin then
      mergeGo ({ startMin := last.startMin, endMin := max last.endMin r.endMin } :: acc) rest
    else mergeGo (r :: last :: acc) rest

/-- Merge touching or overlapping ranges of a day, left to right. -/
def mergeRanges (rs : List Range) : List Range := mergeGo [] rs

/-- Steps 3 and 4 of normalizeAndClip for one day: sweep the claimable
slots into runs, sort by start, merge, and keep at most 4 ranges. -/
def clipDay (occd : Nat → Option String) (taskKey : String) (norm_d : List Range) : List Range :=
  let ok := okSlot occd taskKey norm_d
  let runs := sweepRuns ok
  let sorted := stableSortBy (fun r => r.startMin) runs
  (mergeRanges sorted).take 4

/-- normalizeAndClip: normalize the submitted week, clip each day against
the occupancy map that excludes the task being saved, and compute the
next-day spillover list for an overnight today-scope save. -/
def normalizeAndClip (st : Store) (ctx : WeekCtx) (scope : Scope) (taskKey : String)
    (x : WeekRanges) : WeekRanges × List Range :=
  let norm := normalizeWeek x
  let occ := buildOccupancyMap st ctx taskKey
  let clipped : WeekRanges := fun d => clipDay (occ d) taskKey (norm d)
  let spillNextDay :=
    if scope = Scope.today ∧ hadOvernightB x = true then clipped (ctx.todayIndex + 1) else []
  (clipped, spillNextDay)

/-- Option truthiness of a numeric property: undefined and 0 are falsy. -/
def truthyNum (o : Option Nat) : Bool :=
  match o with
  | none => false
  | some n => decide (n ≠ 0)

/-- saveRanges: record the last-used scope, normalize and clip, then
persist per scope, stamping the order counter on a first save at the
recurring, week or month scope, and writing or deleting the date-level
entries at the today scope. -/
def saveRanges (st : Store) (ctx : WeekCtx) (taskKey : String) (scope : Scope)
    (weekRanges : WeekRanges) : Store :=
  let st1 := { st with lastScope := jSet st.lastScope taskKey scope }
  let nc := normalizeAndClip st1 ctx scope taskKey weekRanges
  let week := nc.1
  let spillNextDay := nc.2
  match scope with
  | Scope.recurring =>
    let st2 := { st1 with EXACT := jSet st1.EXACT taskKey week }
    if truthyNum (jGet st2.orderRecurring taskKey) then st2
    else { st2 with orderRecurring := jSet st2.orderRecurring taskKey st2.saveSeq,
                    saveSeq := st2.saveSeq + 1 }
  | Scope.week =>
    let st2 := { st1 with byWeek := jSet2 st1.byWeek ctx.wkKey taskKey week }
    let ow := jEnsure st2.orderWeek ctx.wkKey
    let st3 := { st2 with orderWeek := ow }
    if truthyNum (jGet2 st3.orderWeek ctx.wkKey taskKey) then st3
    else { st3 with orderWeek := jSet2 st3.orderWeek ctx.wkKey taskKey st3.saveSeq,
                    saveSeq := st3.saveSeq + 1 }
  | Scope.month =>
    let st2 := { st1 with byMonth := jSet2 st1.byMonth ctx.moKey taskKey week }
    let om := jEnsure st2.orderMonth ctx.moKey
    let st3 := { st2 with orderMonth := om }
    if truthyNum (jGet2 st3.orderMonth ctx.moKey taskKey) then st3
    else { st3 with orderMonth := jSet2 st3.orderMonth ctx.moKey taskKey st3.saveSeq,
                    saveSeq := st3.saveSeq + 1 }
  | Scope.today =>
    let dateKey := ctx.dateKey ctx.todayIndex
    let nextKey := ctx.nextDateKey
    let todayRanges := week ctx.todayIndex
    let st2 :=
      if todayRanges ≠ [] then
        { st1 with byDate := jSet2 st1.byDate dateKey taskKey todayRanges }
      else if (jGet2 st1.byDate dateKey taskKey).isSome then
        { st1 with byDate := jDel2 st1.byDate dateKey taskKey }
      else st1
    if spillNextDay ≠ [] then
      { st2 with byDate := jSet2 st2.byDate nextKey taskKey spillNextDay }
    else if (jGet2 st2.byDate nextKey taskKey).isSome then
      { st2 with byDate := jDel2 st2.byDate nextKey taskKey }
    else st2

/-! ### Geometry -/

/-- The layout descriptor returned by computeGeometry. -/
structure Geom where
  totalW : Nat
  totalH : Nat
  colW : List Nat
  colX : List Nat
  rowH : List Nat
  rowY : List Nat
  slotY : List Nat
deriving DecidableEq

/-- The remainder-distribution loop of the quarter subdivision: add one
pixel to extra quarters, starting at index start and wrapping modulo 4. -/
def distribExtra (parts : List Nat) (start extra : Nat) : List Nat :=
  (List.range extra).foldl
    (fun ps k => ps.set ((start + k) % 4) (ps.getD ((start + k) % 4) 0 + 1)) parts

/-- The four quarter heights of an hour row of height h, with the extra
pixels distributed starting at index hr mod 4. -/
def quarterParts (h hr : Nat) : List Nat :=
  distribExtra [h / 4, h / 4, h / 4, h / 4] (hr % 4) (h - h / 4 * 4)

/-- computeGeometry: split the width into 7 columns and the height into 24
hour rows (distributing remainders one pixel to the first columns and
rows), subdivide each hour into 4 quarters, and accumulate offsets. -/
def computeGeometry (totalW totalH : Nat) : Geom :=
  let colWBase := totalW / 7
  let extraW := totalW - colWBase * 7
  let colW := (List.range 7).map (fun c => colWBase + if c < extraW then 1 else 0)
  let colX := colW.scanl (· + ·) 0
  let rowHBase := totalH / 24
  let extraH := totalH - rowHBase * 24
  let rowH := (List.range 24).map (fun rI => rowHBase + if rI < extraH then 1 else 0)
  let rowY := rowH.scanl (· + ·) 0
  let flatQuarters := (List.range 24).flatMap (fun hr => quarterParts (rowH.getD hr 0) hr)
  let slotY := flatQuarters.scanl (· + ·) 0
  { totalW := totalW, totalH := totalH, colW := colW, colX := colX,
    rowH := rowH, rowY := rowY, slotY := slotY }

/-! ## Basic numeric lemmas -/

theorem minsToSlot_le_96 (m : Int) : minsToSlot m ≤ 96 := by
  unfold minsToSlot
  have h : max 0 (min 96 ((2 * m + 15) / 30)) ≤ (96 : Int) :=
    max_le (by norm_num) (min_le_left _ _)
  omega

theorem minsToSlot_mul15 (s : Nat) (hs : s ≤ 96) : minsToSlot (15 * (s : Int)) = s := by
  unfold minsToSlot
  have h30 : (2 * (15 * (s : Int)) + 15) / 30 = (s : Int) := by omega
  rw [h30]
  have h1 : min 96 (s : Int) = (s : Int) := min_eq_right (by exact_mod_cast hs)
  have h2 : max 0 (s : Int) = (s : Int) := max_eq_right (by positivity)
  rw [h1, h2, Int.toNat_natCast]

theorem round15_mul15 (s : Int) : round15 (15 * s) = 15 * s := by
  unfold round15
  have h30 : (2 * (15 * s) + 15) / 30 = s := by omega
  rw [h30]
  ring

theorem toInt32_eq_self (n : Int) (h0 : 0 ≤ n) (h1 : n < 2147483648) : toInt32 n = n := by
  unfold toInt32
  have h : (n + 2147483648).emod 4294967296 = n + 2147483648 :=
    Int.emod_eq_of_lt (by omega) (by omega)
  omega

/-! ## Out-of-bounds safety of the grid fill (claim C10) -/

theorem fillRun_oob (cat : String) (d : Fin 7) (lo hi : Nat) (g : Grid) (d' : Fin 7) (s : Nat)
    (hhi : hi ≤ 96) (hs : 96 ≤ s) : fillRun cat d lo hi g d' s = g d' s := by
  unfold fillRun
  rw [if_neg]
  rintro ⟨-, -, h3, -⟩
  omega

theorem applyRange_oob (cat : String) (d : Fin 7) (R : Range) (g : Grid) (d' : Fin 7) (s : Nat)
    (hs : 96 ≤ s) : applyRange cat d R g d' s = g d' s := by
  unfold applyRange
  split
  · rfl
  · split
    · exact fillRun_oob _ _ _ _ _ _ _ (minsToSlot_le_96 _) hs
    · rw [fillRun_oob _ _ _ _ _ _ _ (minsToSlot_le_96 _) hs,
        fillRun_oob _ _ _ _ _ _ _ (minsToSlot_le_96 _) hs]

theorem applyDay_oob (cat : String) (d : Fin 7) (rs : List Range) (g : Grid) (d' : Fin 7) (s : Nat)
    (hs : 96 ≤ s) : (rs.foldl (fun g R => applyRange cat d R g) g) d' s = g d' s := by
  induction rs generalizing g with
  | nil => rfl
  | cons R rs ih => rw [List.foldl_cons, ih, applyRange_oob _ _ _ _ _ _ hs]

theorem applyRangesToSlots_oob (cat : String) (w : WeekRanges) (g : Grid) (d' : Fin 7) (s : Nat)
    (hs : 96 ≤ s) : applyRangesToSlots cat w g d' s = g d' s := by
  unfold applyRangesToSlots
  generalize List.finRange 7 = ds
  induction ds generalizing g with
  | nil => rfl
  | cons dd ds ih => rw [List.foldl_cons, ih, applyDay_oob _ _ _ _ _ _ hs]

/-- Claim C10: the minute-to-slot conversion clamps every integer minute
value, however malformed, into the interval from 0 to 96, and applying an
arbitrary range list to the slot grid never touches a cell at slot index
96 or beyond, so the render pass is total on malformed range data. -/
theorem C10_minsToSlot_clamped_and_grid_safe :
    (∀ m : Int, minsToSlot m ≤ 96) ∧
    (∀ (cat : String) (w : WeekRanges) (g : Grid) (d : Fin 7) (s : Nat),
      96 ≤ s → applyRangesToSlots cat w g d s = g d s) := by
  refine ⟨minsToSlot_le_96, ?_⟩
  intro cat w g d s hs
  exact applyRangesToSlots_oob cat w g d s hs

/-! ## Monotonicity of the grid fill: claims are never displaced (claim C1) -/

theorem fillRun_mono (cat : String) (d : Fin 7) (lo hi : Nat) (g : Grid) (d' : Fin 7) (s : Nat)
    (k : String) (h : g d' s = some k) : fillRun cat d lo hi g d' s = some k := by
  unfold fillRun
  rw [if_neg, h]
  rintro ⟨-, -, -, h4⟩
  rw [h] at h4
  exact Option.noConfusion h4

theorem applyRange_mono (cat : String) (d : Fin 7) (R : Range) (g : Grid) (d' : Fin 7) (s : Nat)
    (k : String) (h : g d' s = some k) : applyRange cat d R g d' s = some k := by
  unfold applyRange
  split
  · exact h
  · split
    · exact fillRun_mono _ _ _ _ _ _ _ _ h
    · exact fillRun_mono _ _ _ _ _ _ _ _ (fillRun_mono _ _ _ _ _ _ _ _ h)

theorem applyDay_mono (cat : String) (d : Fin 7) (rs : List Range) (g : Grid) (d' : Fin 7)
    (s : Nat) (k : String) (h : g d' s = some k) :
    (rs.foldl (fun g R => applyRange cat d R g) g) d' s = some k := by
  induction rs generalizing g with
  | nil => exact h
  | cons R rs ih => exact ih _ (applyRange_mono _ _ _ _ _ _ _ h)

theorem applyRangesToSlots_mono (cat : String) (w : WeekRanges) (g : Grid) (d' : Fin 7) (s : Nat)
    (k : String) (h : g d' s = some k) : applyRangesToSlots cat w g d' s = some k := by
  unfold applyRangesToSlots
  generalize List.finRange 7 = ds
  induction ds generalizing g with
  | nil => exact h
  | cons dd ds ih => exact ih _ (applyDay_mono _ _ _ _ _ _ _ h)

/-- The grid after applying a list of tasks in order. -/
def applyTaskList (st : Store) (ctx : WeekCtx) (l : List String) (g : Grid) : Grid :=
  l.foldl (fun g key => applyRangesToSlots key (effectiveExactForTask st ctx key) g) g

theorem rebuild_eq_applyTaskList (st : Store) (ctx : WeekCtx) :
    rebuildSlotsForVisibleWeek st ctx = applyTaskList st ctx (orderedTasks st ctx) blankWeekSlots :=
  rfl

theorem applyTaskList_mono (st : Store) (ctx : WeekCtx) (l : List String) (g : Grid) (d : Fin 7)
    (s : Nat) (k : String) (h : g d s = some k) : applyTaskList st ctx l g d s = some k := by
  induction l generalizing g with
  | nil => exact h
  | cons key l ih => exact ih _ (applyRangesToSlots_mono _ _ _ _ _ _ h)

/-- Claim C1: each cell of the rendered slot grid carries at most one task
key, and the grid builder is first-claim-wins: a cell claimed after
processing any prefix of the priority-ordered task list holds the same key
in the final grid, so later tasks never displace earlier ones. -/
theorem C1_no_overlap_first_claim_wins (st : Store) (ctx : WeekCtx) :
    (∀ (d : Fin 7) (s : Nat) (k₁ k₂ : String),
      rebuildSlotsForVisibleWeek st ctx d s = some k₁ →
      rebuildSlotsForVisibleWeek st ctx d s = some k₂ → k₁ = k₂) ∧
    (∀ (pre suf : List String) (d : Fin 7) (s : Nat) (k : String),
      orderedTasks st ctx = pre ++ suf →
      applyTaskList st ctx pre blankWeekSlots d s = some k →
      rebuildSlotsForVisibleWeek st ctx d s = some k) := by
  constructor
  · intro d s k₁ k₂ h₁ h₂
    rw [h₁] at h₂
    exact Option.some.inj h₂
  · intro pre suf d s k hsplit h
    rw [rebuild_eq_applyTaskList, hsplit]
    unfold applyTaskList
    rw [List.foldl_append]
    exact applyTaskList_mono st ctx suf _ d s k h

/-! ## The effective-range resolver (claim C4) -/

/-- Modelled from the spec: the per-day layering of the scope overrides,
the date exception first, else the week exception, else the month
exception, else the recurring template. -/
def effSpecDay (st : Store) (ctx : WeekCtx) (taskKey : String) (d : Fin 7) : List Range :=
  match jGet2 st.byDate (ctx.dateKey d) taskKey with
  | some l => l
  | none =>
    match jGet2 st.byWeek ctx.wkKey taskKey with
    | some w => w d
    | none =>
      match jGet2 st.byMonth ctx.moKey taskKey with
      | some w => w d
      | none => deepCopyWeek (jGet st.EXACT taskKey) d

theorem range_map_eta (l : List Range) :
    l.map (fun r => ({ startMin := r.startMin, endMin := r.endMin } : Range)) = l := by
  simp

/-- Claim C4: for every task, visible week and day, the effective ranges
equal the recurring template wholesale-replaced by the month exception,
then the week exception, then per day by the date exception, the date
layer applying independently of week and month overrides; the resolver is
a pure function of the store, so computing it leaves the store unchanged. -/
theorem C4_effective_layering (st : Store) (ctx : WeekCtx) (taskKey : String) (d : Fin 7) :
    effectiveExactForTask st ctx taskKey d = effSpecDay st ctx taskKey d := by
  unfold effectiveExactForTask effSpecDay
  cases hd : jGet2 st.byDate (ctx.dateKey d) taskKey with
  | some l => simp [hd, range_map_eta]
  | none =>
    cases hw : jGet2 st.byWeek ctx.wkKey taskKey with
    | some w => simp [hd, hw, deepCopyWeek]
    | none =>
      cases hm : jGet2 st.byMonth ctx.moKey taskKey with
      | some w => simp [hd, hw, hm, deepCopyWeek]
      | none => simp [hd, hw, hm]

/-! ## Geometry lemmas (claim C9) -/

theorem sum_map_base_indicator (n base r : Nat) :
    ((List.range n).map (fun c => base + if c < r then 1 else 0)).sum = n * base + min r n := by
  induction n with
  | zero => simp
  | succ n ih =>
    rw [List.range_succ, List.map_append, List.sum_append, ih]
    by_cases h : n < r
    · simp only [List.map_cons, List.map_nil, List.sum_cons, List.sum_nil, if_pos h]
      rw [Nat.succ_mul]
      omega
    · simp only [List.map_cons, List.map_nil, List.sum_cons, List.sum_nil, if_neg h]
      rw [Nat.succ_mul]
      omega

theorem getD_map_range (f : Nat → Nat) (n c : Nat) (hc : c < n) :
    ((List.range n).map f).getD c 0 = f c := by
  rw [List.getD_eq_getElem?_getD, List.getElem?_map, List.getElem?_range hc]
  rfl

theorem scanl_getD_zero (l : List Nat) (b : Nat) : (l.scanl (· + ·) b).getD 0 0 = b := by
  cases l <;> rfl

theorem scanl_getD_succ (l : List Nat) (b : Nat) (i : Nat) (hi : i < l.length) :
    (l.scanl (· + ·) b).getD (i + 1) 0 = (l.scanl (· + ·) b).getD i 0 + l.getD i 0 := by
  induction l generalizing b i with
  | nil => simp at hi
  | cons a l ih =>
    rw [List.scanl_cons, List.singleton_append]
    cases i with
    | zero =>
      simp only [Nat.zero_add, List.getD_cons_succ, List.getD_cons_zero]
      rw [scanl_getD_zero]
    | succ i =>
      simp only [List.getD_cons_succ]
      exact ih (b + a) i (by simpa using hi)

theorem distribExtra_length (parts : List Nat) (start extra : Nat) :
    (distribExtra parts start extra).length = parts.length := by
  unfold distribExtra
  generalize List.range extra = l
  induction l generalizing parts with
  | nil => rfl
  | cons a l ih => rw [List.foldl_cons, ih, List.length_set]

theorem quarterParts_length (h hr : Nat) : (quarterParts h hr).length = 4 := by
  unfold quarterParts
  rw [distribExtra_length]
  rfl

theorem quarterParts_spec (h hr : Nat) :
    (quarterParts h hr).sum = h ∧
    (∀ k, k < h % 4 → (quarterParts h hr).getD ((hr % 4 + k) % 4) 0 = h / 4 + 1) ∧
    (∀ q, q < 4 →
      (quarterParts h hr).getD q 0 = h / 4 + if (q + 4 - hr % 4) % 4 < h % 4 then 1 else 0) := by
  have hb : 4 * (h / 4) + h % 4 = h := Nat.div_add_mod h 4
  unfold quarterParts
  have he : h - h / 4 * 4 = h % 4 := by omega
  rw [he]
  set b := h / 4 with hbdef
  set r := h % 4 with hrdef
  set s := hr % 4 with hsdef
  have hr4 : r < 4 := by omega
  have hs4 : s < 4 := by omega
  clear hbdef hrdef hsdef he
  interval_cases r <;> interval_cases s <;>
    refine ⟨by simp [distribExtra, List.range_succ]; omega,
      fun k hk => by
        first
        | exact absurd hk (by omega)
        | (interval_cases k <;> simp [distribExtra, List.range_succ]),
      fun q hq => by interval_cases q <;> simp [distribExtra, List.range_succ]⟩

/-- Claim C9: for positive drawable dimensions, the geometry calculator
produces 7 column widths summing exactly to the width with exactly the
first width-mod-7 columns one pixel wider, 24 row heights summing exactly
to the height with the first height-mod-24 rows one pixel taller, per-hour
quarter heights summing to the hour row height with extra pixels
distributed starting at quarter index hour-mod-4, and cumulative column,
row and quarter-slot offsets consistent with those widths and heights. -/
theorem C9_geometry_remainders (W Hg : Nat) (hW : 0 < W) (hH : 0 < Hg) :
    (computeGeometry W Hg).colW.length = 7 ∧
    (computeGeometry W Hg).colW.sum = W ∧
    (∀ c, c < 7 →
      (computeGeometry W Hg).colW.getD c 0 = W / 7 + if c < W % 7 then 1 else 0) ∧
    (computeGeometry W Hg).rowH.length = 24 ∧
    (computeGeometry W Hg).rowH.sum = Hg ∧
    (∀ rI, rI < 24 →
      (computeGeometry W Hg).rowH.getD rI 0 = Hg / 24 + if rI < Hg % 24 then 1 else 0) ∧
    (∀ hr, hr < 24 →
      (quarterParts ((computeGeometry W Hg).rowH.getD hr 0) hr).sum
        = (computeGeometry W Hg).rowH.getD hr 0) ∧
    (∀ hr k, hr < 24 → k < (computeGeometry W Hg).rowH.getD hr 0 % 4 →
      (quarterParts ((computeGeometry W Hg).rowH.getD hr 0) hr).getD ((hr % 4 + k) % 4) 0
        = (computeGeometry W Hg).rowH.getD hr 0 / 4 + 1) ∧
    (computeGeometry W Hg).colX.getD 0 0 = 0 ∧
    (∀ i, i < 7 →
      (computeGeometry W Hg).colX.getD (i + 1) 0
        = (computeGeometry W Hg).colX.getD i 0 + (computeGeometry W Hg).colW.getD i 0) ∧
    (computeGeometry W Hg).rowY.getD 0 0 = 0 ∧
    (∀ i, i < 24 →
      (computeGeometry W Hg).rowY.getD (i + 1) 0
        = (computeGeometry W Hg).rowY.getD i 0 + (computeGeometry W Hg).rowH.getD i 0) ∧
    (computeGeometry W Hg).slotY.getD 0 0 = 0 ∧
    (∀ hr q, hr < 24 → q < 4 →
      (computeGeometry W Hg).slotY.getD (4 * hr + q + 1) 0
        = (computeGeometry W Hg).slotY.getD (4 * hr + q) 0
          + (quarterParts ((computeGeometry W Hg).rowH.getD hr 0) hr).getD q 0) := by
  have hcolW : (computeGeometry W Hg).colW
      = (List.range 7).map (fun c => W / 7 + if c < W - W / 7 * 7 then 1 else 0) := rfl
  have hrowH : (computeGeometry W Hg).rowH
      = (List.range 24).map (fun rI => Hg / 24 + if rI < Hg - Hg / 24 * 24 then 1 else 0) := rfl
  have hW7 : W - W / 7 * 7 = W % 7 := by omega
  have hH24 : Hg - Hg / 24 * 24 = Hg % 24 := by omega
  have hmod7 : W % 7 < 7 := Nat.mod_lt _ (by norm_num)
  have hmod24 : Hg % 24 < 24 := Nat.mod_lt _ (by norm_num)
  have hcolX : (computeGeometry W Hg).colX = (computeGeometry W Hg).colW.scanl (· + ·) 0 := rfl
  have hrowY : (computeGeometry W Hg).rowY = (computeGeometry W Hg).rowH.scanl (· + ·) 0 := rfl
  have hflat : (computeGeometry W Hg).slotY
      = ((List.range 24).flatMap
          (fun hr => quarterParts ((computeGeometry W Hg).rowH.getD hr 0) hr)).scanl (· + ·) 0 :=
    rfl
  have hflatlen : ∀ n, n ≤ 24 →
      ((List.range n).flatMap
        (fun hr => quarterParts ((computeGeometry W Hg).rowH.getD hr 0) hr)).length = 4 * n := by
    intro n hn
    induction n with
    | zero => rfl
    | succ n ih =>
      rw [List.range_succ, List.flatMap_append, List.length_append, ih (by omega)]
      simp [quarterParts_length]
      omega
  have hflatget : ∀ hr q, hr < 24 → q < 4 →
      ((List.range 24).flatMap
        (fun hr => quarterParts ((computeGeometry W Hg).rowH.getD hr 0) hr)).getD (4 * hr + q) 0
      = (quarterParts ((computeGeometry W Hg).rowH.getD hr 0) hr).getD q 0 := by
    have main : ∀ n hr q, hr < n → n ≤ 24 → q < 4 →
        ((List.range n).flatMap
          (fun hr => quarterParts ((computeGeometry W Hg).rowH.getD hr 0) hr)).getD (4 * hr + q) 0
        = (quarterParts ((computeGeometry W Hg).rowH.getD hr 0) hr).getD q 0 := by
      intro n
      induction n with
      | zero => intro hr q h; omega
      | succ n ih =>
        intro hr q hhr hn hq
        rw [List.range_succ, List.flatMap_append]
        rcases Nat.lt_or_ge hr n with h | h
        · rw [List.getD_append]
          · exact ih hr q h (by omega) hq
          · rw [hflatlen n (by omega)]; omega
        · have hrn : hr = n := by omega
          rw [hrn]
          rw [List.getD_append_right]
          · rw [hflatlen n (by omega)]
            simp only [List.flatMap_cons, List.flatMap_nil, List.append_nil]
            congr 1
            omega
          · rw [hflatlen n (by omega)]; omega
    intro hr q hhr hq
    exact main 24 hr q hhr (by omega) hq
  refine ⟨by rw [hcolW]; simp, ?_, ?_, by rw [hrowH]; simp, ?_, ?_, ?_, ?_, ?_, ?_, ?_, ?_, ?_, ?_⟩
  · rw [hcolW, hW7, sum_map_base_indicator]
    have := Nat.div_add_mod W 7
    omega
  · intro c hc
    rw [hcolW, hW7, getD_map_range _ _ _ hc]
  · rw [hrowH, hH24, sum_map_base_indicator]
    have := Nat.div_add_mod Hg 24
    omega
  · intro rI hrI
    rw [hrowH, hH24, getD_map_range _ _ _ hrI]
  · intro hr _
    exact (quarterParts_spec _ hr).1
  · intro hr k _ hk
    exact (quarterParts_spec _ hr).2.1 k hk
  · rw [hcolX]; exact scanl_getD_zero _ _
  · intro i hi
    rw [hcolX]
    exact scanl_getD_succ _ _ i (by rw [hcolW]; simpa using hi)
  · rw [hrowY]; exact scanl_getD_zero _ _
  · intro i hi
    rw [hrowY]
    exact scanl_getD_succ _ _ i (by rw [hrowH]; simpa using hi)
  · rw [hflat]; exact scanl_getD_zero _ _
  · intro hr q hhr hq
    rw [hflat, scanl_getD_succ _ _ _ (by rw [hflatlen 24 (by omega)]; omega)]
    rw [hflatget hr q hhr hq]

/-- Witness for claim C9 at the spec's own test dimensions. -/
theorem C9_witness :
    0 < 100 ∧ 0 < 48 ∧
    ((computeGeometry 100 48).colW.length = 7 ∧
     (computeGeometry 100 48).colW.sum = 100 ∧
     (∀ c, c < 7 →
       (computeGeometry 100 48).colW.getD c 0 = 100 / 7 + if c < 100 % 7 then 1 else 0) ∧
     (computeGeometry 100 48).rowH.length = 24 ∧
     (computeGeometry 100 48).rowH.sum = 48 ∧
     (∀ rI, rI < 24 →
       (computeGeometry 100 48).rowH.getD rI 0 = 48 / 24 + if rI < 48 % 24 then 1 else 0) ∧
     (∀ hr, hr < 24 →
       (quarterParts ((computeGeometry 100 48).rowH.getD hr 0) hr).sum
         = (computeGeometry 100 48).rowH.getD hr 0) ∧
     (∀ hr k, hr < 24 → k < (computeGeometry 100 48).rowH.getD hr 0 % 4 →
       (quarterParts ((computeGeometry 100 48).rowH.getD hr 0) hr).getD ((hr % 4 + k) % 4) 0
         = (computeGeometry 100 48).rowH.getD hr 0 / 4 + 1) ∧
     (computeGeometry 100 48).colX.getD 0 0 = 0 ∧
     (∀ i, i < 7 →
       (computeGeometry 100 48).colX.getD (i + 1) 0
         = (computeGeometry 100 48).colX.getD i 0 + (computeGeometry 100 48).colW.getD i 0) ∧
     (computeGeometry 100 48).rowY.getD 0 0 = 0 ∧
     (∀ i, i < 24 →
       (computeGeometry 100 48).rowY.getD (i + 1) 0
         = (computeGeometry 100 48).rowY.getD i 0 + (computeGeometry 100 48).rowH.getD i 0) ∧
     (computeGeometry 100 48).slotY.getD 0 0 = 0 ∧
     (∀ hr q, hr < 24 → q < 4 →
       (computeGeometry 100 48).slotY.getD (4 * hr + q + 1) 0
         = (computeGeometry 100 48).slotY.getD (4 * hr + q) 0
           + (quarterParts ((computeGeometry 100 48).rowH.getD hr 0) hr).getD q 0)) :=
  ⟨by norm_num, by norm_num, C9_geometry_remainders 100 48 (by norm_num) (by norm_num)⟩

/-! ## Stable-sort lemmas -/

theorem insertSorted_nil {α : Type} (key : α → Int) (x : α) :
    insertSorted key x [] = [x] := rfl

theorem insertSorted_cons {α : Type} (key : α → Int) (x y : α) (ys : List α) :
    insertSorted key x (y :: ys) =
      if key y < key x then y :: insertSorted key x ys else x :: y :: ys := rfl

theorem insertSorted_perm {α : Type} (key : α → Int) (x : α) (l : List α) :
    (insertSorted key x l).Perm (x :: l) := by
  induction l with
  | nil => rfl
  | cons y ys ih =>
    rw [insertSorted_cons]
    split
    · exact ((ih.cons y).trans (List.Perm.swap x y ys))
    · rfl

theorem stableSortBy_perm {α : Type} (key : α → Int) (l : List α) :
    (stableSortBy key l).Perm l := by
  induction l with
  | nil => rfl
  | cons x xs ih => exact (insertSorted_perm key x _).trans (ih.cons x)

theorem insertSorted_pairwise {α : Type} (key : α → Int) (x : α) (l : List α)
    (hl : l.Pairwise (fun a b => key a ≤ key b)) :
    (insertSorted key x l).Pairwise (fun a b => key a ≤ key b) := by
  induction l with
  | nil => simp [insertSorted_nil]
  | cons y ys ih =>
    rw [List.pairwise_cons] at hl
    rw [insertSorted_cons]
    split
    · rename_i h
      rw [List.pairwise_cons]
      refine ⟨?_, ih hl.2⟩
      intro z hz
      rcases List.mem_cons.mp ((insertSorted_perm key x ys).mem_iff.mp hz) with rfl | hz'
      · exact le_of_lt h
      · exact hl.1 z hz'
    · rename_i h
      rw [List.pairwise_cons]
      refine ⟨?_, List.Pairwise.cons hl.1 hl.2⟩
      intro z hz
      rcases List.mem_cons.mp hz with rfl | hz'
      · omega
      · exact le_trans (by omega) (hl.1 z hz')

theorem stableSortBy_pairwise {α : Type} (key : α → Int) (l : List α) :
    (stableSortBy key l).Pairwise (fun a b => key a ≤ key b) := by
  induction l with
  | nil => simp [stableSortBy]
  | cons x xs ih => exact insertSorted_pairwise key x _ ih

theorem insertSorted_split {α : Type} (key : α → Int) (x : α) (l : List α) :
    ∃ l₁ l₂, l = l₁ ++ l₂ ∧ insertSorted key x l = l₁ ++ x :: l₂ ∧
      ∀ y ∈ l₁, key y < key x := by
  induction l with
  | nil => exact ⟨[], [], rfl, rfl, by simp⟩
  | cons y ys ih =>
    by_cases h : key y < key x
    · obtain ⟨l₁, l₂, he, hi, hlt⟩ := ih
      refine ⟨y :: l₁, l₂, by rw [List.cons_append, ← he], ?_, ?_⟩
      · rw [insertSorted_cons, if_pos h, hi]
        rfl
      · intro z hz
        rcases List.mem_cons.mp hz with rfl | hz'
        · exact h
        · exact hlt z hz'
    · refine ⟨[], y :: ys, rfl, ?_, by simp⟩
      rw [insertSorted_cons, if_neg h]
      rfl

theorem sublist_insertSorted {α : Type} (key : α → Int) (x : α) (l : List α) :
    l.Sublist (insertSorted key x l) := by
  obtain ⟨l₁, l₂, he, hi, -⟩ := insertSorted_split key x l
  rw [hi, he]
  exact List.Sublist.append (List.Sublist.refl l₁) (List.sublist_cons_self x l₂)

theorem stableSortBy_stable {α : Type} (key : α → Int) (a b : α) (l : List α)
    (hab : [a, b].Sublist l) (hk : key a ≤ key b) :
    [a, b].Sublist (stableSortBy key l) := by
  induction l with
  | nil => cases hab
  | cons x xs ih =>
    cases hab with
    | cons _ h =>
      exact (ih h).trans (sublist_insertSorted key x (stableSortBy key xs))
    | cons₂ _ h =>
      obtain ⟨l₁, l₂, he, hi, hlt⟩ := insertSorted_split key a (stableSortBy key xs)
      rw [stableSortBy, hi]
      have hb : b ∈ stableSortBy key xs :=
        (stableSortBy_perm key xs).mem_iff.mpr (List.singleton_sublist.mp h)
      rw [he] at hb
      have hb2 : b ∈ l₂ := by
        rcases List.mem_append.mp hb with h1 | h2
        · exact absurd (hlt b h1) (by omega)
        · exact h2
      have h1 : List.Sublist [a, b] (a :: l₂) :=
        List.cons_sublist_cons.mpr (List.singleton_sublist.mpr hb2)
      exact h1.trans (List.sublist_append_right l₁ _)

theorem insertSorted_eq_cons {α : Type} (key : α → Int) (x : α) (l : List α)
    (h : ∀ y ∈ l, key x ≤ key y) : insertSorted key x l = x :: l := by
  cases l with
  | nil => rfl
  | cons y ys =>
    rw [insertSorted_cons, if_neg]
    have := h y (by simp)
    omega

theorem stableSortBy_of_sorted {α : Type} (key : α → Int) (l : List α)
    (h : l.Pairwise (fun a b => key a ≤ key b)) : stableSortBy key l = l := by
  induction l with
  | nil => rfl
  | cons x xs ih =>
    rw [List.pairwise_cons] at h
    rw [stableSortBy, ih h.2]
    exact insertSorted_eq_cons key x xs h.1

theorem insertSorted_congr {α : Type} (key₁ key₂ : α → Int) (x : α) (l : List α)
    (hx : key₁ x = key₂ x) (h : ∀ y ∈ l, key₁ y = key₂ y) :
    insertSorted key₁ x l = insertSorted key₂ x l := by
  induction l with
  | nil => rfl
  | cons y ys ih =>
    rw [insertSorted_cons, insertSorted_cons, hx, h y (by simp)]
    split
    · rw [ih (fun z hz => h z (by simp [hz]))]
    · rfl

theorem stableSortBy_congr {α : Type} (key₁ key₂ : α → Int) (l : List α)
    (h : ∀ y ∈ l, key₁ y = key₂ y) : stableSortBy key₁ l = stableSortBy key₂ l := by
  induction l with
  | nil => rfl
  | cons x xs ih =>
    rw [stableSortBy, stableSortBy, ih (fun z hz => h z (by simp [hz]))]
    refine insertSorted_congr key₁ key₂ x _ (h x (by simp)) ?_
    intro y hy
    exact h y (by simp [(stableSortBy_perm key₂ xs).mem_iff.mp hy])

theorem filter_insertSorted {α : Type} (key : α → Int) (p : α → Bool) (x : α) (l : List α)
    (hl : l.Pairwise (fun a b => key a ≤ key b)) :
    (insertSorted key x l).filter p =
      if p x then insertSorted key x (l.filter p) else l.filter p := by
  induction l with
  | nil =>
    rw [insertSorted_nil]
    by_cases hpx : p x <;> simp [List.filter, hpx, insertSorted_nil]
  | cons y ys ih =>
    rw [List.pairwise_cons] at hl
    rw [insertSorted_cons]
    by_cases h : key y < key x
    · rw [if_pos h, List.filter_cons]
      by_cases hpy : p y
      · rw [if_pos hpy, ih hl.2, List.filter_cons, if_pos hpy]
        by_cases hpx : p x
        · rw [if_pos hpx, if_pos hpx, insertSorted_cons, if_pos h]
        · rw [if_neg hpx, if_neg hpx]
      · rw [if_neg hpy, ih hl.2, List.filter_cons, if_neg hpy]
    · rw [if_neg h, List.filter_cons]
      by_cases hpx : p x
      · rw [if_pos hpx, if_pos hpx, List.filter_cons]
        by_cases hpy : p y
        · rw [if_pos hpy, insertSorted_cons, if_neg h]
        · rw [if_neg hpy, insertSorted_eq_cons]
          intro z hz
          have hz' : z ∈ ys := List.mem_of_mem_filter hz
          have := hl.1 z hz'
          omega
      · rw [if_neg hpx, if_neg hpx]

theorem filter_stableSortBy {α : Type} (key : α → Int) (p : α → Bool) (l : List α) :
    (stableSortBy key l).filter p = stableSortBy key (l.filter p) := by
  induction l with
  | nil => rfl
  | cons x xs ih =>
    rw [stableSortBy, filter_insertSorted key p x _ (stableSortBy_pairwise key xs), ih,
      List.filter_cons]
    by_cases hpx : p x
    · rw [if_pos hpx, if_pos hpx]
      rfl
    · rw [if_neg hpx, if_neg hpx]

/-! ## The priority sequence and processing order (claim C3) -/

/-- The three candidate order stamps read by seqForTask, defined ones only. -/
def ctxStamps (st : Store) (ctx : WeekCtx) (taskKey : String) : List Nat :=
  [jGet2 st.orderWeek ctx.wkKey taskKey,
   jGet2 st.orderMonth ctx.moKey taskKey,
   jGet st.orderRecurring taskKey].filterMap id

theorem seqForTask_eq_sorted_head (st : Store) (ctx : WeekCtx) (k : String) :
    seqForTask st ctx k
      = (stableSortBy (fun n : Nat => (n : Int)) (ctxStamps st ctx k)).headD 1000000000 := rfl

/-- Modelled from the spec: the minimum of the defined order stamps among
the week, month and recurring scopes, or the largest possible sequence
when no stamp is defined. -/
def specMinSeq (st : Store) (ctx : WeekCtx) (taskKey : String) : Nat :=
  match ctxStamps st ctx taskKey with
  | [] => 1000000000
  | c :: cs => cs.foldl min c

theorem specMinSeq_nil (st : Store) (ctx : WeekCtx) (k : String)
    (h : ctxStamps st ctx k = []) : specMinSeq st ctx k = 1000000000 := by
  rw [specMinSeq, h]

theorem specMinSeq_cons (st : Store) (ctx : WeekCtx) (k : String) (c : Nat) (cs : List Nat)
    (h : ctxStamps st ctx k = c :: cs) : specMinSeq st ctx k = cs.foldl min c := by
  rw [specMinSeq, h]

theorem foldl_min_le_start (c : Nat) (cs : List Nat) : cs.foldl min c ≤ c := by
  induction cs generalizing c with
  | nil => simp
  | cons d ds ih => exact le_trans (ih (min c d)) (min_le_left c d)

theorem foldl_min_le_mem (c : Nat) (cs : List Nat) (y : Nat) (hy : y ∈ cs) :
    cs.foldl min c ≤ y := by
  induction cs generalizing c with
  | nil => cases hy
  | cons d ds ih =>
    rw [List.foldl_cons]
    rcases List.mem_cons.mp hy with rfl | hy'
    · exact le_trans (foldl_min_le_start (min c y) ds) (min_le_right c y)
    · exact ih (min c d) hy'

theorem foldl_min_mem (c : Nat) (cs : List Nat) : cs.foldl min c = c ∨ cs.foldl min c ∈ cs := by
  induction cs generalizing c with
  | nil => left; rfl
  | cons d ds ih =>
    rw [List.foldl_cons]
    rcases ih (min c d) with h | h
    · rcases Nat.le_total c d with hcd | hdc
      · left; rw [h, min_eq_left hcd]
      · right
        rw [h, min_eq_right hdc]
        exact List.mem_cons_self d ds
    · right; exact List.mem_cons_of_mem d h

theorem headD_stableSortBy_min (l : List Nat) :
    (stableSortBy (fun n : Nat => (n : Int)) l).headD 1000000000
      = match l with
        | [] => 1000000000
        | c :: cs => cs.foldl min c := by
  cases hl : l with
  | nil => rfl
  | cons c cs =>
    have hperm := stableSortBy_perm (fun n : Nat => (n : Int)) (c :: cs)
    have hsorted := stableSortBy_pairwise (fun n : Nat => (n : Int)) (c :: cs)
    cases hs : stableSortBy (fun n : Nat => (n : Int)) (c :: cs) with
    | nil =>
      rw [hs] at hperm
      exact absurd hperm.symm (by simp)
    | cons h t =>
      rw [hs] at hperm hsorted
      rw [List.pairwise_cons] at hsorted
      simp only [List.headD_cons]
      have hmem : h ∈ c :: cs := hperm.mem_iff.mp (by simp)
      have hle : cs.foldl min c ≤ h := by
        rcases List.mem_cons.mp hmem with rfl | hm
        · exact foldl_min_le_start h cs
        · exact foldl_min_le_mem c cs h hm
      have hge : h ≤ cs.foldl min c := by
        rcases foldl_min_mem c cs with hm | hm
        · have hcmem : c ∈ h :: t := hperm.mem_iff.mpr (by simp)
          rw [hm]
          rcases List.mem_cons.mp hcmem with rfl | hc
          · omega
          · exact_mod_cast hsorted.1 c hc
        · have hfmem : cs.foldl min c ∈ h :: t := hperm.mem_iff.mpr (by simp [hm])
          rcases List.mem_cons.mp hfmem with heq | hc
          · omega
          · exact_mod_cast hsorted.1 _ hc
      omega

/-- Claim C3: the effective priority sequence used by the grid builders is
the minimum of the defined order stamps among the visible week's week key,
month key and the recurring scope; a task with no stamp gets the largest
sequence and so sorts after every task whose stamps are genuine counter
values; the processing order is a permutation of the catalog, ascending in
effective sequence, and stable: tasks in catalog order with
non-descending sequences keep their relative order. -/
theorem C3_effective_sequence_and_order (st : Store) (ctx : WeekCtx) :
    (∀ k, seqForTask st ctx k = specMinSeq st ctx k) ∧
    (∀ k, ctxStamps st ctx k = [] → seqForTask st ctx k = 1000000000) ∧
    (∀ k k', ctxStamps st ctx k = [] → ctxStamps st ctx k' ≠ [] →
      (∀ n ∈ ctxStamps st ctx k', n < 1000000000) →
      seqForTask st ctx k' < seqForTask st ctx k) ∧
    (orderedTasks st ctx).Perm st.tasks ∧
    (orderedTasks st ctx).Pairwise (fun a b => seqForTask st ctx a ≤ seqForTask st ctx b) ∧
    (∀ a b, [a, b].Sublist st.tasks → seqForTask st ctx a ≤ seqForTask st ctx b →
      [a, b].Sublist (orderedTasks st ctx)) := by
  have hmin : ∀ k, seqForTask st ctx k = specMinSeq st ctx k := by
    intro k
    rw [seqForTask_eq_sorted_head, headD_stableSortBy_min]
    rfl
  refine ⟨hmin, ?_, ?_, stableSortBy_perm _ _, ?_, ?_⟩
  · intro k hk
    rw [hmin, specMinSeq_nil st ctx k hk]
  · intro k k' hk hk' hlt
    rw [hmin, hmin, specMinSeq_nil st ctx k hk]
    cases hs : ctxStamps st ctx k' with
    | nil => exact absurd hs hk'
    | cons c cs =>
      rw [specMinSeq_cons st ctx k' c cs hs]
      have hltc : c < 1000000000 := hlt c (by rw [hs]; simp)
      have := foldl_min_le_start c cs
      omega
  · have := stableSortBy_pairwise (fun k => (seqForTask st ctx k : Int)) st.tasks
    exact this.imp (by intro a b h; exact_mod_cast h)
  · intro a b hab hk
    exact stableSortBy_stable _ a b st.tasks hab (by exact_mod_cast hk)

/-! ## Dictionary lemmas -/

theorem jGet_nil {α : Type} (k : String) : jGet ([] : JsObj α) k = none := rfl

theorem jGet_cons {α : Type} (p : String × α) (rest : JsObj α) (k : String) :
    jGet (p :: rest) k = if p.1 = k then some p.2 else jGet rest k := by
  unfold jGet
  by_cases h : p.1 = k
  · rw [List.find?_cons_of_pos _ (by simpa using h), if_pos h]
    rfl
  · rw [List.find?_cons_of_neg _ (by simpa using h), if_neg h]

theorem jGet_map_overwrite {α : Type} (o : JsObj α) (k : String) (v : α) (k' : String) :
    jGet (o.map (fun p => if p.1 = k then (k, v) else p)) k'
      = (jGet o k').map (fun w => if k' = k then v else w) := by
  induction o with
  | nil => rfl
  | cons p rest ih =>
    rw [List.map_cons, jGet_cons, jGet_cons]
    by_cases hk : p.1 = k
    · rw [if_pos hk]
      by_cases hkk : k = k'
      · rw [if_pos (show ((k, v) : String × α).1 = k' from hkk),
          if_pos (by rw [hk, hkk]), Option.map_some']
        simp [hkk.symm]
      · rw [if_neg (show ¬((k, v) : String × α).1 = k' from hkk),
          if_neg (by rw [hk]; exact hkk), ih]
    · rw [if_neg hk]
      by_cases hp' : p.1 = k'
      · rw [if_pos hp', if_pos hp', Option.map_some']
        have : ¬ k' = k := fun he => hk (hp'.trans he)
        simp [this]
      · rw [if_neg hp', if_neg hp', ih]

theorem jGet_isSome_of_any {α : Type} (o : JsObj α) (k : String)
    (h : o.any (fun p => decide (p.1 = k)) = true) : (jGet o k).isSome := by
  induction o with
  | nil => simp at h
  | cons p rest ih =>
    rw [jGet_cons]
    rcases List.any_eq_true.mp h with ⟨q, hq, hqk⟩
    rcases List.mem_cons.mp hq with rfl | hq'
    · rw [if_pos (by simpa using hqk)]
      rfl
    · by_cases hp : p.1 = k
      · rw [if_pos hp]; rfl
      · rw [if_neg hp]
        exact ih (List.any_eq_true.mpr ⟨q, hq', hqk⟩)

theorem jGet_append {α : Type} (o₁ o₂ : JsObj α) (k : String) :
    jGet (o₁ ++ o₂) k = if (jGet o₁ k).isSome then jGet o₁ k else jGet o₂ k := by
  induction o₁ with
  | nil => rfl
  | cons p rest ih =>
    rw [List.cons_append, jGet_cons, jGet_cons]
    by_cases hp : p.1 = k
    · rw [if_pos hp, if_pos hp]
      rfl
    · rw [if_neg hp, if_neg hp, ih]

theorem jGet_jSet {α : Type} (o : JsObj α) (k : String) (v : α) (k' : String) :
    jGet (jSet o k v) k' = if k' = k then some v else jGet o k' := by
  unfold jSet
  by_cases hany : o.any (fun p => decide (p.1 = k)) = true
  · rw [if_pos hany, jGet_map_overwrite]
    by_cases hkk : k' = k
    · rw [if_pos hkk]
      have := jGet_isSome_of_any o k hany
      rw [hkk]
      cases hg : jGet o k
      · rw [hg] at this; simp at this
      · simp [hkk]
    · rw [if_neg hkk]
      cases jGet o k' <;> simp [hkk]
  · rw [if_neg hany, jGet_append]
    by_cases hkk : k' = k
    · have hnone : jGet o k' = none := by
        cases hg : jGet o k' with
        | none => rfl
        | some w =>
          exfalso
          apply hany
          subst hkk
          clear hany
          induction o with
          | nil => simp [jGet_nil] at hg
          | cons p rest ih =>
            rw [jGet_cons] at hg
            by_cases hp : p.1 = k'
            · exact List.any_eq_true.mpr ⟨p, by simp, by simpa using hp⟩
            · rw [if_neg hp] at hg
              exact List.any_cons.symm ▸ Bool.or_eq_true_iff.mpr (Or.inr (ih hg))
      rw [hnone]
      simp only [Option.isSome_none, Bool.false_eq_true, if_false]
      rw [jGet_cons, if_pos hkk.symm, if_pos hkk]
    · by_cases hs : (jGet o k').isSome
      · rw [if_pos hs, if_neg hkk]
      · rw [if_neg hs, jGet_cons, if_neg (fun he => hkk he.symm), jGet_nil, if_neg hkk]
        rw [Option.not_isSome_iff_eq_none] at hs
        rw [hs]

theorem jDel_cons {α : Type} (p : String × α) (rest : JsObj α) (k : String) :
    jDel (p :: rest) k = if p.1 = k then jDel rest k else p :: jDel rest k := by
  unfold jDel
  rw [List.filter_cons]
  by_cases hp : p.1 = k
  · rw [if_neg (by simpa using hp), if_pos hp]
  · rw [if_pos (by simpa using hp), if_neg hp]

theorem jGet_jDel {α : Type} (o : JsObj α) (k k' : String) :
    jGet (jDel o k) k' = if k' = k then none else jGet o k' := by
  induction o with
  | nil => by_cases hkk : k' = k <;> simp [jDel, jGet_nil, hkk]
  | cons p rest ih =>
    rw [jDel_cons]
    by_cases hp : p.1 = k
    · rw [if_pos hp, ih, jGet_cons]
      by_cases hkk : k' = k
      · rw [if_pos hkk, if_pos hkk]
      · rw [if_neg hkk, if_neg hkk, if_neg (by rw [hp]; exact fun he => hkk he.symm)]
    · rw [if_neg hp, jGet_cons, jGet_cons, ih]
      by_cases hkk : k' = k
      · have hpk : ¬ p.1 = k' := fun he => hp (he.trans hkk)
        rw [if_neg hpk, if_pos hkk, if_pos hkk]
      · rw [if_neg hkk, if_neg hkk]

theorem jDel_eq_nil_get {α : Type} (m : JsObj α) (b : String) (h : jDel m b = [])
    (d : String) (hd : d ≠ b) : jGet m d = none := by
  have hall : ∀ p ∈ m, p.1 = b := by
    intro p hp
    by_contra hne
    have : p ∈ jDel m b := List.mem_filter.mpr ⟨hp, by simpa using hne⟩
    rw [h] at this
    cases this
  induction m with
  | nil => rfl
  | cons p rest ih =>
    rw [jGet_cons, if_neg]
    · refine ih ?_ ?_
      · unfold jDel at h ⊢
        rw [List.filter_cons] at h
        by_cases hp : p.1 = b
        · rwa [if_neg (by simpa using hp)] at h
        · exact absurd (hall p (by simp)) hp
      · intro q hq
        exact hall q (by simp [hq])
    · rw [hall p (by simp)]
      exact fun he => hd he.symm

theorem jGet2_eq {α : Type} (o : JsObj (JsObj α)) (a b : String) :
    jGet2 o a b = (jGet o a).bind (fun m => jGet m b) := by
  cases h : jGet o a <;> simp [jGet2, h]

theorem jGet2_jSet2 {α : Type} (o : JsObj (JsObj α)) (a b : String) (v : α) (c d : String) :
    jGet2 (jSet2 o a b v) c d = if c = a ∧ d = b then some v else jGet2 o c d := by
  rw [jGet2_eq]
  unfold jSet2
  rw [jGet_jSet]
  by_cases hca : c = a
  · rw [if_pos hca, Option.some_bind, jGet_jSet]
    by_cases hdb : d = b
    · rw [if_pos hdb, if_pos ⟨hca, hdb⟩]
    · rw [if_neg hdb, if_neg (fun hc => hdb hc.2), jGet2_eq, hca]
      cases hg : jGet o a with
      | none => rw [Option.none_bind, Option.getD_none, jGet_nil]
      | some m => rw [Option.some_bind, Option.getD_some]
  · rw [if_neg hca, if_neg (fun hc => hca hc.1), jGet2_eq]

theorem jGet2_jEnsure {α : Type} (o : JsObj (JsObj α)) (a c d : String) :
    jGet2 (jEnsure o a) c d = jGet2 o c d := by
  rw [jGet2_eq]
  unfold jEnsure
  rw [jGet_jSet]
  by_cases hca : c = a
  · rw [if_pos hca, Option.some_bind, jGet2_eq, hca]
    cases hg : jGet o a with
    | none => rw [Option.none_bind, Option.getD_none, jGet_nil]
    | some m => rw [Option.some_bind, Option.getD_some]
  · rw [if_neg hca, jGet2_eq]

theorem jGet2_jDel2 {α : Type} (o : JsObj (JsObj α)) (a b : String) (c d : String) :
    jGet2 (jDel2 o a b) c d = if c = a ∧ d = b then none else jGet2 o c d := by
  unfold jDel2
  cases ho : jGet o a with
  | none =>
    show jGet2 o c d = if c = a ∧ d = b then none else jGet2 o c d
    by_cases hc : c = a ∧ d = b
    · rw [if_pos hc, jGet2_eq, hc.1, ho, Option.none_bind]
    · rw [if_neg hc]
  | some m =>
    show jGet2 (if (jDel m b).isEmpty = true then jDel o a else jSet o a (jDel m b)) c d
        = if c = a ∧ d = b then none else jGet2 o c d
    by_cases hemp : (jDel m b).isEmpty = true
    · rw [if_pos hemp]
      have hnil : jDel m b = [] := by
        cases h : jDel m b with
        | nil => rfl
        | cons q qs => rw [h] at hemp; simp [List.isEmpty] at hemp
      rw [jGet2_eq, jGet_jDel]
      by_cases hca : c = a
      · rw [if_pos hca, Option.none_bind]
        by_cases hdb : d = b
        · rw [if_pos ⟨hca, hdb⟩]
        · rw [if_neg (fun hc => hdb hc.2), jGet2_eq, hca, ho, Option.some_bind,
            jDel_eq_nil_get m b hnil d hdb]
      · rw [if_neg hca, if_neg (fun hc => hca hc.1), jGet2_eq]
    · rw [if_neg hemp, jGet2_eq, jGet_jSet]
      by_cases hca : c = a
      · rw [if_pos hca, Option.some_bind, jGet_jDel]
        by_cases hdb : d = b
        · rw [if_pos hdb, if_pos ⟨hca, hdb⟩]
        · rw [if_neg hdb, if_neg (fun hc => hdb hc.2), jGet2_eq, hca, ho, Option.some_bind]
      · rw [if_neg hca, if_neg (fun hc => hca hc.1), jGet2_eq]

/-! ## Order stamping on save (claim C7) -/

/-- The order stamp read at a stampable scope with the visible week's keys. -/
def orderGet (st : Store) (ctx : WeekCtx) (sc : Scope) (taskKey : String) : Option Nat :=
  match sc with
  | Scope.recurring => jGet st.orderRecurring taskKey
  | Scope.week => jGet2 st.orderWeek ctx.wkKey taskKey
  | Scope.month => jGet2 st.orderMonth ctx.moKey taskKey
  | Scope.today => none

/-- Well-formedness of the stamp maps: every defined stamp is a genuine
counter value, positive and below the bound. -/
def StampsBounded (st : Store) (B : Nat) : Prop :=
  0 < B ∧
  (∀ T n, jGet st.orderRecurring T = some n → 0 < n ∧ n < B) ∧
  (∀ wk T n, jGet2 st.orderWeek wk T = some n → 0 < n ∧ n < B) ∧
  (∀ mo T n, jGet2 st.orderMonth mo T = some n → 0 < n ∧ n < B)

theorem saveRecurring_proj (st : Store) (ctx : WeekCtx) (T : String) (x : WeekRanges) :
    (saveRanges st ctx T Scope.recurring x).orderRecurring
      = (if truthyNum (jGet st.orderRecurring T) then st.orderRecurring
         else jSet st.orderRecurring T st.saveSeq) ∧
    (saveRanges st ctx T Scope.recurring x).orderWeek = st.orderWeek ∧
    (saveRanges st ctx T Scope.recurring x).orderMonth = st.orderMonth ∧
    (saveRanges st ctx T Scope.recurring x).saveSeq
      = (if truthyNum (jGet st.orderRecurring T) then st.saveSeq else st.saveSeq + 1) := by
  unfold saveRanges
  by_cases h : truthyNum (jGet st.orderRecurring T) = true
  · simp [h]
  · simp [h]

theorem saveWeek_proj (st : Store) (ctx : WeekCtx) (T : String) (x : WeekRanges) :
    (saveRanges st ctx T Scope.week x).orderWeek
      = (if truthyNum (jGet2 st.orderWeek ctx.wkKey T) then jEnsure st.orderWeek ctx.wkKey
         else jSet2 (jEnsure st.orderWeek ctx.wkKey) ctx.wkKey T st.saveSeq) ∧
    (saveRanges st ctx T Scope.week x).orderRecurring = st.orderRecurring ∧
    (saveRanges st ctx T Scope.week x).orderMonth = st.orderMonth ∧
    (saveRanges st ctx T Scope.week x).saveSeq
      = (if truthyNum (jGet2 st.orderWeek ctx.wkKey T) then st.saveSeq else st.saveSeq + 1) := by
  have hcond : ∀ b : JsObj (JsObj Nat), b = st.orderWeek →
      truthyNum (jGet2 (jEnsure b ctx.wkKey) ctx.wkKey T)
        = truthyNum (jGet2 st.orderWeek ctx.wkKey T) := by
    intro b hb
    rw [jGet2_jEnsure, hb]
  unfold saveRanges
  by_cases h : truthyNum (jGet2 st.orderWeek ctx.wkKey T) = true
  · simp [hcond st.orderWeek rfl, h]
  · simp [hcond st.orderWeek rfl, h]

theorem saveMonth_proj (st : Store) (ctx : WeekCtx) (T : String) (x : WeekRanges) :
    (saveRanges st ctx T Scope.month x).orderMonth
      = (if truthyNum (jGet2 st.orderMonth ctx.moKey T) then jEnsure st.orderMonth ctx.moKey
         else jSet2 (jEnsure st.orderMonth ctx.moKey) ctx.moKey T st.saveSeq) ∧
    (saveRanges st ctx T Scope.month x).orderRecurring = st.orderRecurring ∧
    (saveRanges st ctx T Scope.month x).orderWeek = st.orderWeek ∧
    (saveRanges st ctx T Scope.month x).saveSeq
      = (if truthyNum (jGet2 st.orderMonth ctx.moKey T) then st.saveSeq else st.saveSeq + 1) := by
  have hcond : ∀ b : JsObj (JsObj Nat), b = st.orderMonth →
      truthyNum (jGet2 (jEnsure b ctx.moKey) ctx.moKey T)
        = truthyNum (jGet2 st.orderMonth ctx.moKey T) := by
    intro b hb
    rw [jGet2_jEnsure, hb]
  unfold saveRanges
  by_cases h : truthyNum (jGet2 st.orderMonth ctx.moKey T) = true
  · simp [hcond st.orderMonth rfl, h]
  · simp [hcond st.orderMonth rfl, h]

theorem saveToday_order_proj (st : Store) (ctx : WeekCtx) (T : String) (x : WeekRanges) :
    (saveRanges st ctx T Scope.today x).orderRecurring = st.orderRecurring ∧
    (saveRanges st ctx T Scope.today x).orderWeek = st.orderWeek ∧
    (saveRanges st ctx T Scope.today x).orderMonth = st.orderMonth ∧
    (saveRanges st ctx T Scope.today x).saveSeq = st.saveSeq := by
  refine ⟨?_, ?_, ?_, ?_⟩ <;>
    · simp only [saveRanges]
      repeat' split
      all_goals rfl

/-- Claim C7: at the recurring, week and month scopes the order stamp is
assigned from the save counter exactly once, on the first save of the task
at that scope and key (the counter advancing by one), every later save
leaves the stamp and the counter untouched, other stamps are never
modified, and well-formedness of the stamps (all positive and below the
counter) is preserved, so tasks first-saved earlier carry strictly lower
sequence values than tasks first-saved later. -/
theorem C7_first_save_stamping (st : Store) (ctx : WeekCtx) (T : String) (sc : Scope)
    (x : WeekRanges) (hsc : sc ≠ Scope.today) :
    (truthyNum (orderGet st ctx sc T) = true →
      orderGet (saveRanges st ctx T sc x) ctx sc T = orderGet st ctx sc T ∧
      (saveRanges st ctx T sc x).saveSeq = st.saveSeq) ∧
    (truthyNum (orderGet st ctx sc T) = false →
      orderGet (saveRanges st ctx T sc x) ctx sc T = some st.saveSeq ∧
      (saveRanges st ctx T sc x).saveSeq = st.saveSeq + 1) ∧
    (∀ sc' T', sc' ≠ Scope.today → sc' ≠ sc ∨ T' ≠ T →
      orderGet (saveRanges st ctx T sc x) ctx sc' T' = orderGet st ctx sc' T') ∧
    (StampsBounded st st.saveSeq →
      ((orderGet st ctx sc T).isSome ↔ truthyNum (orderGet st ctx sc T) = true) ∧
      StampsBounded (saveRanges st ctx T sc x) (saveRanges st ctx T sc x).saveSeq) := by
  cases sc with
  | today => exact absurd rfl hsc
  | recurring =>
    obtain ⟨h1, h2, h3, h4⟩ := saveRecurring_proj st ctx T x
    refine ⟨?_, ?_, ?_, ?_⟩
    · intro ht
      have ht0 : truthyNum (jGet st.orderRecurring T) = true := ht
      constructor
      · show jGet (saveRanges st ctx T Scope.recurring x).orderRecurring T
            = jGet st.orderRecurring T
        rw [h1, if_pos ht0]
      · rw [h4, if_pos ht0]
    · intro ht
      have ht0 : truthyNum (jGet st.orderRecurring T) = false := ht
      have ht' : ¬ truthyNum (jGet st.orderRecurring T) = true := by rw [ht0]; simp
      constructor
      · show jGet (saveRanges st ctx T Scope.recurring x).orderRecurring T = some st.saveSeq
        rw [h1, if_neg ht', jGet_jSet, if_pos rfl]
      · rw [h4, if_neg ht']
    · intro sc' T' hsc' hne
      cases sc' with
      | today => exact absurd rfl hsc'
      | week =>
        show jGet2 (saveRanges st ctx T Scope.recurring x).orderWeek ctx.wkKey T'
            = jGet2 st.orderWeek ctx.wkKey T'
        rw [h2]
      | month =>
        show jGet2 (saveRanges st ctx T Scope.recurring x).orderMonth ctx.moKey T'
            = jGet2 st.orderMonth ctx.moKey T'
        rw [h3]
      | recurring =>
        have hT : T' ≠ T := by
          rcases hne with h | h
          · exact absurd rfl h
          · exact h
        show jGet (saveRanges st ctx T Scope.recurring x).orderRecurring T'
            = jGet st.orderRecurring T'
        rw [h1]
        split
        · rfl
        · rw [jGet_jSet, if_neg hT]
    · intro hwf
      obtain ⟨hB, hrec, hwk, hmo⟩ := hwf
      constructor
      · show (jGet st.orderRecurring T).isSome ↔ truthyNum (jGet st.orderRecurring T) = true
        cases hg : jGet st.orderRecurring T with
        | none => simp [truthyNum]
        | some n =>
          have := hrec T n hg
          simp [truthyNum]
          omega
      · refine ⟨?_, ?_, ?_, ?_⟩
        · rw [h4]; split <;> omega
        · intro T' n hg
          rw [h1] at hg
          rw [h4]
          by_cases ht : truthyNum (jGet st.orderRecurring T) = true
          · rw [if_pos ht] at hg
            rw [if_pos ht]
            exact hrec T' n hg
          · rw [if_neg ht] at hg
            rw [if_neg ht]
            rw [jGet_jSet] at hg
            by_cases hT : T' = T
            · rw [if_pos hT] at hg
              have : n = st.saveSeq := by injection hg; omega
              omega
            · rw [if_neg hT] at hg
              have := hrec T' n hg
              omega
        · intro wk T' n hg
          rw [h2] at hg
          rw [h4]
          have := hwk wk T' n hg
          split <;> omega
        · intro mo T' n hg
          rw [h3] at hg
          rw [h4]
          have := hmo mo T' n hg
          split <;> omega
  | week =>
    obtain ⟨h1, h2, h3, h4⟩ := saveWeek_proj st ctx T x
    refine ⟨?_, ?_, ?_, ?_⟩
    · intro ht
      have ht0 : truthyNum (jGet2 st.orderWeek ctx.wkKey T) = true := ht
      constructor
      · show jGet2 (saveRanges st ctx T Scope.week x).orderWeek ctx.wkKey T
            = jGet2 st.orderWeek ctx.wkKey T
        rw [h1, if_pos ht0, jGet2_jEnsure]
      · rw [h4, if_pos ht0]
    · intro ht
      have ht0 : truthyNum (jGet2 st.orderWeek ctx.wkKey T) = false := ht
      have ht' : ¬ truthyNum (jGet2 st.orderWeek ctx.wkKey T) = true := by rw [ht0]; simp
      constructor
      · show jGet2 (saveRanges st ctx T Scope.week x).orderWeek ctx.wkKey T = some st.saveSeq
        rw [h1, if_neg ht', jGet2_jSet2, if_pos ⟨rfl, rfl⟩]
      · rw [h4, if_neg ht']
    · intro sc' T' hsc' hne
      cases sc' with
      | today => exact absurd rfl hsc'
      | recurring =>
        show jGet (saveRanges st ctx T Scope.week x).orderRecurring T'
            = jGet st.orderRecurring T'
        rw [h2]
      | month =>
        show jGet2 (saveRanges st ctx T Scope.week x).orderMonth ctx.moKey T'
            = jGet2 st.orderMonth ctx.moKey T'
        rw [h3]
      | week =>
        have hT : T' ≠ T := by
          rcases hne with h | h
          · exact absurd rfl h
          · exact h
        show jGet2 (saveRanges st ctx T Scope.week x).orderWeek ctx.wkKey T'
            = jGet2 st.orderWeek ctx.wkKey T'
        rw [h1]
        split
        · rw [jGet2_jEnsure]
        · rw [jGet2_jSet2, if_neg (fun hc => hT hc.2), jGet2_jEnsure]
    · intro hwf
      obtain ⟨hB, hrec, hwk, hmo⟩ := hwf
      constructor
      · show (jGet2 st.orderWeek ctx.wkKey T).isSome
            ↔ truthyNum (jGet2 st.orderWeek ctx.wkKey T) = true
        cases hg : jGet2 st.orderWeek ctx.wkKey T with
        | none => simp [truthyNum]
        | some n =>
          have := hwk ctx.wkKey T n hg
          simp [truthyNum]
          omega
      · refine ⟨?_, ?_, ?_, ?_⟩
        · rw [h4]; split <;> omega
        · intro T' n hg
          rw [h2] at hg
          rw [h4]
          have := hrec T' n hg
          split <;> omega
        · intro wk T' n hg
          rw [h1] at hg
          rw [h4]
          by_cases ht : truthyNum (jGet2 st.orderWeek ctx.wkKey T) = true
          · rw [if_pos ht] at hg
            rw [if_pos ht]
            rw [jGet2_jEnsure] at hg
            exact hwk wk T' n hg
          · rw [if_neg ht] at hg
            rw [if_neg ht]
            rw [jGet2_jSet2] at hg
            by_cases hc : wk = ctx.wkKey ∧ T' = T
            · rw [if_pos hc] at hg
              have : n = st.saveSeq := by injection hg; omega
              omega
            · rw [if_neg hc, jGet2_jEnsure] at hg
              have := hwk wk T' n hg
              omega
        · intro mo T' n hg
          rw [h3] at hg
          rw [h4]
          have := hmo mo T' n hg
          split <;> omega
  | month =>
    obtain ⟨h1, h2, h3, h4⟩ := saveMonth_proj st ctx T x
    refine ⟨?_, ?_, ?_, ?_⟩
    · intro ht
      have ht0 : truthyNum (jGet2 st.orderMonth ctx.moKey T) = true := ht
      constructor
      · show jGet2 (saveRanges st ctx T Scope.month x).orderMonth ctx.moKey T
            = jGet2 st.orderMonth ctx.moKey T
        rw [h1, if_pos ht0, jGet2_jEnsure]
      · rw [h4, if_pos ht0]
    · intro ht
      have ht0 : truthyNum (jGet2 st.orderMonth ctx.moKey T) = false := ht
      have ht' : ¬ truthyNum (jGet2 st.orderMonth ctx.moKey T) = true := by rw [ht0]; simp
      constructor
      · show jGet2 (saveRanges st ctx T Scope.month x).orderMonth ctx.moKey T = some st.saveSeq
        rw [h1, if_neg ht', jGet2_jSet2, if_pos ⟨rfl, rfl⟩]
      · rw [h4, if_neg ht']
    · intro sc' T' hsc' hne
      cases sc' with
      | today => exact absurd rfl hsc'
      | recurring =>
        show jGet (saveRanges st ctx T Scope.month x).orderRecurring T'
            = jGet st.orderRecurring T'
        rw [h2]
      | week =>
        show jGet2 (saveRanges st ctx T Scope.month x).orderWeek ctx.wkKey T'
            = jGet2 st.orderWeek ctx.wkKey T'
        rw [h3]
      | month =>
        have hT : T' ≠ T := by
          rcases hne with h | h
          · exact absurd rfl h
          · exact h
        show jGet2 (saveRanges st ctx T Scope.month x).orderMonth ctx.moKey T'
            = jGet2 st.orderMonth ctx.moKey T'
        rw [h1]
        split
        · rw [jGet2_jEnsure]
        · rw [jGet2_jSet2, if_neg (fun hc => hT hc.2), jGet2_jEnsure]
    · intro hwf
      obtain ⟨hB, hrec, hwk, hmo⟩ := hwf
      constructor
      · show (jGet2 st.orderMonth ctx.moKey T).isSome
            ↔ truthyNum (jGet2 st.orderMonth ctx.moKey T) = true
        cases hg : jGet2 st.orderMonth ctx.moKey T with
        | none => simp [truthyNum]
        | some n =>
          have := hmo ctx.moKey T n hg
          simp [truthyNum]
          omega
      · refine ⟨?_, ?_, ?_, ?_⟩
        · rw [h4]; split <;> omega
        · intro T' n hg
          rw [h2] at hg
          rw [h4]
          have := hrec T' n hg
          split <;> omega
        · intro wk T' n hg
          rw [h3] at hg
          rw [h4]
          have := hwk wk T' n hg
          split <;> omega
        · intro mo T' n hg
          rw [h1] at hg
          rw [h4]
          by_cases ht : truthyNum (jGet2 st.orderMonth ctx.moKey T) = true
          · rw [if_pos ht] at hg
            rw [if_pos ht]
            rw [jGet2_jEnsure] at hg
            exact hmo mo T' n hg
          · rw [if_neg ht] at hg
            rw [if_neg ht]
            rw [jGet2_jSet2] at hg
            by_cases hc : mo = ctx.moKey ∧ T' = T
            · rw [if_pos hc] at hg
              have : n = st.saveSeq := by injection hg; omega
              omega
            · rw [if_neg hc, jGet2_jEnsure] at hg
              have := hmo mo T' n hg
              omega

/-! ## Congruence of the clip path in the non-lastScope fields -/

theorem seqForTask_congr (st st' : Store) (ctx : WeekCtx) (k : String)
    (hw : st'.orderWeek = st.orderWeek) (hm : st'.orderMonth = st.orderMonth)
    (hr : st'.orderRecurring = st.orderRecurring) :
    seqForTask st' ctx k = seqForTask st ctx k := by
  unfold seqForTask
  rw [hw, hm, hr]

theorem effective_congr (st st' : Store) (ctx : WeekCtx) (k : String)
    (hE : st'.EXACT = st.EXACT) (hD : st'.byDate = st.byDate)
    (hW : st'.byWeek = st.byWeek) (hM : st'.byMonth = st.byMonth) :
    effectiveExactForTask st' ctx k = effectiveExactForTask st ctx k := by
  unfold effectiveExactForTask
  rw [hE, hD, hW, hM]

theorem buildOccupancyMap_congr (st st' : Store) (ctx : WeekCtx) (excl : String)
    (ht : st'.tasks = st.tasks)
    (hE : st'.EXACT = st.EXACT) (hD : st'.byDate = st.byDate)
    (hW : st'.byWeek = st.byWeek) (hM : st'.byMonth = st.byMonth)
    (how : st'.orderWeek = st.orderWeek) (hom : st'.orderMonth = st.orderMonth)
    (hor : st'.orderRecurring = st.orderRecurring) :
    buildOccupancyMap st' ctx excl = buildOccupancyMap st ctx excl := by
  unfold buildOccupancyMap orderedTasks
  rw [ht]
  rw [stableSortBy_congr (fun k => (seqForTask st' ctx k : Int))
    (fun k => (seqForTask st ctx k : Int)) st.tasks
    (fun k _ => by
      show ((seqForTask st' ctx k : Nat) : Int) = ((seqForTask st ctx k : Nat) : Int)
      rw [seqForTask_congr st st' ctx k how hom hor])]
  congr 1
  funext g key
  rw [effective_congr st st' ctx key hE hD hW hM]

theorem normalizeAndClip_congr (st st' : Store) (ctx : WeekCtx) (sc : Scope) (T : String)
    (x : WeekRanges)
    (ht : st'.tasks = st.tasks)
    (hE : st'.EXACT = st.EXACT) (hD : st'.byDate = st.byDate)
    (hW : st'.byWeek = st.byWeek) (hM : st'.byMonth = st.byMonth)
    (how : st'.orderWeek = st.orderWeek) (hom : st'.orderMonth = st.orderMonth)
    (hor : st'.orderRecurring = st.orderRecurring) :
    normalizeAndClip st' ctx sc T x = normalizeAndClip st ctx sc T x := by
  unfold normalizeAndClip
  rw [buildOccupancyMap_congr st st' ctx T ht hE hD hW hM how hom hor]

/-! ## The today-scope save (claims C5 and C6) -/

theorem saveToday_nc (st : Store) (ctx : WeekCtx) (T : String) (x : WeekRanges) :
    normalizeAndClip { st with lastScope := jSet st.lastScope T Scope.today } ctx
        Scope.today T x
      = normalizeAndClip st ctx Scope.today T x :=
  normalizeAndClip_congr st _ ctx Scope.today T x rfl rfl rfl rfl rfl rfl rfl rfl

theorem saveToday_byDate (st : Store) (ctx : WeekCtx) (T : String) (x : WeekRanges) :
    (saveRanges st ctx T Scope.today x).byDate =
      (let dk := ctx.dateKey ctx.todayIndex
       let nk := ctx.nextDateKey
       let w := (normalizeAndClip st ctx Scope.today T x).1
       let sp := (normalizeAndClip st ctx Scope.today T x).2
       let b2 := if w ctx.todayIndex ≠ [] then jSet2 st.byDate dk T (w ctx.todayIndex)
                 else if (jGet2 st.byDate dk T).isSome then jDel2 st.byDate dk T
                 else st.byDate
       if sp ≠ [] then jSet2 b2 nk T sp
       else if (jGet2 b2 nk T).isSome then jDel2 b2 nk T
       else b2) := by
  simp only [saveRanges, saveToday_nc]
  repeat' split
  all_goals first | rfl | (rename_i h1 h2; exact absurd h1 h2) | (rename_i h1 h2; exact absurd h2 h1)

theorem saveToday_frame (st : Store) (ctx : WeekCtx) (T : String) (x : WeekRanges) :
    (saveRanges st ctx T Scope.today x).byWeek = st.byWeek ∧
    (saveRanges st ctx T Scope.today x).byMonth = st.byMonth ∧
    (saveRanges st ctx T Scope.today x).EXACT = st.EXACT := by
  refine ⟨?_, ?_, ?_⟩ <;>
    · simp only [saveRanges]
      repeat' split
      all_goals rfl

theorem jGet_jSet2_outer_ne {α : Type} (o : JsObj (JsObj α)) (a b : String) (v : α)
    (c : String) (hc : c ≠ a) : jGet (jSet2 o a b v) c = jGet o c := by
  unfold jSet2
  rw [jGet_jSet, if_neg hc]

theorem jGet_jDel2_outer_ne {α : Type} (o : JsObj (JsObj α)) (a b : String)
    (c : String) (hc : c ≠ a) : jGet (jDel2 o a b) c = jGet o c := by
  unfold jDel2
  cases ho : jGet o a with
  | none => rfl
  | some m =>
    show jGet (if (jDel m b).isEmpty = true then jDel o a else jSet o a (jDel m b)) c = jGet o c
    split
    · rw [jGet_jDel, if_neg hc]
    · rw [jGet_jSet, if_neg hc]

/-- Modelled from the spec: the effective ranges of a day when no date
exception applies, the week exception first, else the month exception,
else the recurring template. -/
def effNoDateDay (st : Store) (ctx : WeekCtx) (taskKey : String) (d : Fin 7) : List Range :=
  match jGet2 st.byWeek ctx.wkKey taskKey with
  | some w => w d
  | none =>
    match jGet2 st.byMonth ctx.moKey taskKey with
    | some w => w d
    | none => deepCopyWeek (jGet st.EXACT taskKey) d

theorem normalizeAndClip_spill (st : Store) (ctx : WeekCtx) (sc : Scope) (T : String)
    (x : WeekRanges) :
    (normalizeAndClip st ctx sc T x).2
      = if sc = Scope.today ∧ hadOvernightB x = true
        then (normalizeAndClip st ctx sc T x).1 (ctx.todayIndex + 1) else [] := rfl

theorem jGet2_jSet2_outer_ne {α : Type} (o : JsObj (JsObj α)) (a b : String) (v : α)
    (c d : String) (hc : c ≠ a) : jGet2 (jSet2 o a b v) c d = jGet2 o c d := by
  rw [jGet2_jSet2, if_neg (fun h => hc h.1)]

theorem jGet2_jDel2_outer_ne {α : Type} (o : JsObj (JsObj α)) (a b : String)
    (c d : String) (hc : c ≠ a) : jGet2 (jDel2 o a b) c d = jGet2 o c d := by
  rw [jGet2_jDel2, if_neg (fun h => hc h.1)]

/-- Claim C5: a today-scope save whose clipped result for the resolved
target day is empty deletes the task's date exception at that date
(removing the date's whole mapping when the task's entry was its only
one), so the rendered effective ranges for that day fall back to the
week, month or recurring layer; a non-empty clipped result is written
into the date exception. -/
theorem C5_today_empty_deletes_and_falls_back (st : Store) (ctx : WeekCtx) (T : String)
    (x : WeekRanges) (hk : ctx.nextDateKey ≠ ctx.dateKey ctx.todayIndex) :
    ((normalizeAndClip st ctx Scope.today T x).1 ctx.todayIndex = [] →
      jGet2 (saveRanges st ctx T Scope.today x).byDate (ctx.dateKey ctx.todayIndex) T = none ∧
      ((jGet2 st.byDate (ctx.dateKey ctx.todayIndex) T).isSome →
        (∀ m, jGet st.byDate (ctx.dateKey ctx.todayIndex) = some m → ∀ p ∈ m, p.1 = T) →
        jGet (saveRanges st ctx T Scope.today x).byDate (ctx.dateKey ctx.todayIndex) = none) ∧
      effectiveExactForTask (saveRanges st ctx T Scope.today x) ctx T ctx.todayIndex
        = effNoDateDay st ctx T ctx.todayIndex) ∧
    ((normalizeAndClip st ctx Scope.today T x).1 ctx.todayIndex ≠ [] →
      jGet2 (saveRanges st ctx T Scope.today x).byDate (ctx.dateKey ctx.todayIndex) T
        = some ((normalizeAndClip st ctx Scope.today T x).1 ctx.todayIndex)) := by
  have hbd := saveToday_byDate st ctx T x
  simp only at hbd
  obtain ⟨hfW, hfM, hfE⟩ := saveToday_frame st ctx T x
  constructor
  · intro hw
    have hwne : ¬ (normalizeAndClip st ctx Scope.today T x).1 ctx.todayIndex ≠ [] := by
      rw [hw]
      exact fun hc => hc rfl
    rw [if_neg hwne] at hbd
    have hb2none : jGet2 (if (jGet2 st.byDate (ctx.dateKey ctx.todayIndex) T).isSome = true
          then jDel2 st.byDate (ctx.dateKey ctx.todayIndex) T else st.byDate)
        (ctx.dateKey ctx.todayIndex) T = none := by
      by_cases hs : (jGet2 st.byDate (ctx.dateKey ctx.todayIndex) T).isSome = true
      · rw [if_pos hs, jGet2_jDel2, if_pos ⟨rfl, rfl⟩]
      · rw [if_neg hs]
        cases hg : jGet2 st.byDate (ctx.dateKey ctx.todayIndex) T with
        | none => rfl
        | some m => rw [hg] at hs; simp at hs
    have hTn : jGet2 (saveRanges st ctx T Scope.today x).byDate
        (ctx.dateKey ctx.todayIndex) T = none := by
      rw [hbd]
      by_cases hsp : (normalizeAndClip st ctx Scope.today T x).2 ≠ []
      · rw [if_pos hsp, jGet2_jSet2_outer_ne _ _ _ _ _ _ (fun h => hk h.symm)]
        exact hb2none
      · rw [if_neg hsp]
        by_cases hns : (jGet2 (if (jGet2 st.byDate (ctx.dateKey ctx.todayIndex) T).isSome = true
              then jDel2 st.byDate (ctx.dateKey ctx.todayIndex) T else st.byDate)
            ctx.nextDateKey T).isSome = true
        · rw [if_pos hns, jGet2_jDel2_outer_ne _ _ _ _ _ (fun h => hk h.symm)]
          exact hb2none
        · rw [if_neg hns]
          exact hb2none
    refine ⟨hTn, ?_, ?_⟩
    · intro hsome hall
      have houter : jGet (if (jGet2 st.byDate (ctx.dateKey ctx.todayIndex) T).isSome = true
            then jDel2 st.byDate (ctx.dateKey ctx.todayIndex) T else st.byDate)
          (ctx.dateKey ctx.todayIndex) = none := by
        rw [if_pos hsome]
        unfold jDel2
        cases hg : jGet st.byDate (ctx.dateKey ctx.todayIndex) with
        | none =>
          rw [jGet2_eq, hg] at hsome
          simp at hsome
        | some m =>
          have hnil : jDel m T = [] :=
            List.filter_eq_nil_iff.mpr (fun p hp => by simp [hall m hg p hp])
          show jGet (if (jDel m T).isEmpty = true
              then jDel st.byDate (ctx.dateKey ctx.todayIndex)
              else jSet st.byDate (ctx.dateKey ctx.todayIndex) (jDel m T))
              (ctx.dateKey ctx.todayIndex) = none
          rw [if_pos (by rw [hnil]; rfl), jGet_jDel, if_pos rfl]
      rw [hbd]
      by_cases hsp : (normalizeAndClip st ctx Scope.today T x).2 ≠ []
      · rw [if_pos hsp, jGet_jSet2_outer_ne _ _ _ _ _ (fun h => hk h.symm)]
        exact houter
      · rw [if_neg hsp]
        by_cases hns : (jGet2 (if (jGet2 st.byDate (ctx.dateKey ctx.todayIndex) T).isSome = true
              then jDel2 st.byDate (ctx.dateKey ctx.todayIndex) T else st.byDate)
            ctx.nextDateKey T).isSome = true
        · rw [if_pos hns, jGet_jDel2_outer_ne _ _ _ _ (fun h => hk h.symm)]
          exact houter
        · rw [if_neg hns]
          exact houter
    · rw [C4_effective_layering]
      unfold effSpecDay effNoDateDay
      rw [hTn, hfW, hfM, hfE]
  · intro hw
    rw [if_pos hw] at hbd
    have hwrite : jGet2 (jSet2 st.byDate (ctx.dateKey ctx.todayIndex) T
          ((normalizeAndClip st ctx Scope.today T x).1 ctx.todayIndex))
          (ctx.dateKey ctx.todayIndex) T
        = some ((normalizeAndClip st ctx Scope.today T x).1 ctx.todayIndex) := by
      rw [jGet2_jSet2, if_pos ⟨rfl, rfl⟩]
    rw [hbd]
    by_cases hsp : (normalizeAndClip st ctx Scope.today T x).2 ≠ []
    · rw [if_pos hsp, jGet2_jSet2_outer_ne _ _ _ _ _ _ (fun h => hk h.symm)]
      exact hwrite
    · rw [if_neg hsp]
      by_cases hns : (jGet2 (jSet2 st.byDate (ctx.dateKey ctx.todayIndex) T
            ((normalizeAndClip st ctx Scope.today T x).1 ctx.todayIndex))
          ctx.nextDateKey T).isSome = true
      · rw [if_pos hns, jGet2_jDel2_outer_ne _ _ _ _ _ (fun h => hk h.symm)]
        exact hwrite
      · rw [if_neg hns]
        exact hwrite

/-- Claim C6 (amended): the spill write happens only on an overnight
split, and an empty spill list, in particular whenever no overnight split
occurred, deletes any existing next-date exception for the task. -/
theorem C6_next_date_spill_or_delete (st : Store) (ctx : WeekCtx) (T : String)
    (x : WeekRanges) (hk : ctx.nextDateKey ≠ ctx.dateKey ctx.todayIndex) :
    (hadOvernightB x = false →
      (normalizeAndClip st ctx Scope.today T x).2 = [] ∧
      jGet2 (saveRanges st ctx T Scope.today x).byDate ctx.nextDateKey T = none) ∧
    ((normalizeAndClip st ctx Scope.today T x).2 ≠ [] →
      hadOvernightB x = true ∧
      jGet2 (saveRanges st ctx T Scope.today x).byDate ctx.nextDateKey T
        = some ((normalizeAndClip st ctx Scope.today T x).2)) := by
  have hbd := saveToday_byDate st ctx T x
  simp only at hbd
  have hb2read : ∀ b2 : JsObj (JsObj (List Range)),
      (b2 = jSet2 st.byDate (ctx.dateKey ctx.todayIndex) T
          ((normalizeAndClip st ctx Scope.today T x).1 ctx.todayIndex) ∨
       b2 = jDel2 st.byDate (ctx.dateKey ctx.todayIndex) T ∨ b2 = st.byDate) →
      jGet2 b2 ctx.nextDateKey T = jGet2 st.byDate ctx.nextDateKey T := by
    rintro b2 (rfl | rfl | rfl)
    · exact jGet2_jSet2_outer_ne _ _ _ _ _ _ hk
    · exact jGet2_jDel2_outer_ne _ _ _ _ _ hk
    · rfl
  have hb2cases : (if (normalizeAndClip st ctx Scope.today T x).1 ctx.todayIndex ≠ []
        then jSet2 st.byDate (ctx.dateKey ctx.todayIndex) T
          ((normalizeAndClip st ctx Scope.today T x).1 ctx.todayIndex)
        else if (jGet2 st.byDate (ctx.dateKey ctx.todayIndex) T).isSome = true
        then jDel2 st.byDate (ctx.dateKey ctx.todayIndex) T
        else st.byDate)
      = jSet2 st.byDate (ctx.dateKey ctx.todayIndex) T
          ((normalizeAndClip st ctx Scope.today T x).1 ctx.todayIndex) ∨
      (if (normalizeAndClip st ctx Scope.today T x).1 ctx.todayIndex ≠ []
        then jSet2 st.byDate (ctx.dateKey ctx.todayIndex) T
          ((normalizeAndClip st ctx Scope.today T x).1 ctx.todayIndex)
        else if (jGet2 st.byDate (ctx.dateKey ctx.todayIndex) T).isSome = true
        then jDel2 st.byDate (ctx.dateKey ctx.todayIndex) T
        else st.byDate)
      = jDel2 st.byDate (ctx.dateKey ctx.todayIndex) T ∨
      (if (normalizeAndClip st ctx Scope.today T x).1 ctx.todayIndex ≠ []
        then jSet2 st.byDate (ctx.dateKey ctx.todayIndex) T
          ((normalizeAndClip st ctx Scope.today T x).1 ctx.todayIndex)
        else if (jGet2 st.byDate (ctx.dateKey ctx.todayIndex) T).isSome = true
        then jDel2 st.byDate (ctx.dateKey ctx.todayIndex) T
        else st.byDate)
      = st.byDate := by
    by_cases hw : (normalizeAndClip st ctx Scope.today T x).1 ctx.todayIndex ≠ []
    · left; rw [if_pos hw]
    · rw [if_neg hw]
      by_cases hs : (jGet2 st.byDate (ctx.dateKey ctx.todayIndex) T).isSome = true
      · right; left; rw [if_pos hs]
      · right; right; rw [if_neg hs]
  constructor
  · intro hno
    have hsp : (normalizeAndClip st ctx Scope.today T x).2 = [] := by
      rw [normalizeAndClip_spill, if_neg]
      rintro ⟨-, h2⟩
      rw [hno] at h2
      cases h2
    refine ⟨hsp, ?_⟩
    rw [hbd]
    rw [if_neg (show ¬ (normalizeAndClip st ctx Scope.today T x).2 ≠ [] from by
      rw [hsp]; exact fun hc => hc rfl)]
    by_cases hns : (jGet2 (if (normalizeAndClip st ctx Scope.today T x).1 ctx.todayIndex ≠ []
          then jSet2 st.byDate (ctx.dateKey ctx.todayIndex) T
            ((normalizeAndClip st ctx Scope.today T x).1 ctx.todayIndex)
          else if (jGet2 st.byDate (ctx.dateKey ctx.todayIndex) T).isSome = true
          then jDel2 st.byDate (ctx.dateKey ctx.todayIndex) T
          else st.byDate) ctx.nextDateKey T).isSome = true
    · rw [if_pos hns, jGet2_jDel2, if_pos ⟨rfl, rfl⟩]
    · rw [if_neg hns, hb2read _ hb2cases]
      rw [hb2read _ hb2cases] at hns
      cases hg : jGet2 st.byDate ctx.nextDateKey T with
      | none => rfl
      | some m => rw [hg] at hns; simp at hns
  · intro hsp
    have hov : hadOvernightB x = true := by
      by_contra hno
      have hno' : hadOvernightB x = false := by
        cases h : hadOvernightB x
        · rfl
        · exact absurd h hno
      apply hsp
      rw [normalizeAndClip_spill, if_neg]
      rintro ⟨-, h2⟩
      rw [hno'] at h2
      cases h2
    refine ⟨hov, ?_⟩
    rw [hbd, if_pos hsp, jGet2_jSet2, if_pos ⟨rfl, rfl⟩]

/-! ## Characterization of the normalization step (towards claims C2 and C8) -/

theorem fin7_succ_ne (d : Fin 7) : d + 1 ≠ d := by
  intro h
  have := congrArg Fin.val h
  simp [Fin.val_add] at this
  omega

/-- The ranges a submitted range of day d contributes to day dq of the
normalized week: the rounded range itself on its own day, or for an
overnight range the rounded tail on day d and the rounded head on day
d+1, nothing when the rounded endpoints meet. -/
def contrib (d dq : Fin 7) (r : Range) : List Range :=
  let s := toInt32 r.startMin
  let e := toInt32 r.endMin
  if e > s then
    if dq = d then
      (if round15 e > round15 s then [{ startMin := round15 s, endMin := round15 e }] else [])
    else []
  else if e < s then
    (if dq = d then
      (if round15 (24 * 60) > round15 s then
        [{ startMin := round15 s, endMin := round15 (24 * 60) }] else [])
     else []) ++
    (if dq = d + 1 then
      (if round15 e > round15 0 then [{ startMin := round15 0, endMin := round15 e }] else [])
     else [])
  else []

theorem normStep_day (d : Fin 7) (acc : WeekRanges) (r : Range) (dq : Fin 7) :
    normStep d acc r dq = acc dq ++ contrib d dq r := by
  unfold normStep contrib pushDay
  by_cases h1 : toInt32 r.endMin > toInt32 r.startMin
  · simp only [if_pos h1, Function.update_apply]
    by_cases h2 : round15 (toInt32 r.endMin) > round15 (toInt32 r.startMin) <;>
    by_cases hd : dq = d <;>
      (simp [h2, hd, Function.update_apply, ite_apply] <;> split_ifs <;> simp_all)
  · simp only [if_neg h1]
    by_cases h0 : toInt32 r.endMin < toInt32 r.startMin
    · simp only [if_pos h0, ite_apply, Function.update_apply]
      by_cases ha : round15 (24 * 60) > round15 (toInt32 r.startMin) <;>
      by_cases hb : round15 (toInt32 r.endMin) > round15 0 <;>
      by_cases hd : dq = d <;>
      by_cases hd1 : dq = d + 1 <;>
        first
          | (exfalso; rw [hd] at hd1; exact fin7_succ_ne d hd1.symm)
          | (simp [ha, hb, hd, hd1, Function.update_apply, ite_apply, fin7_succ_ne d,
              (fin7_succ_ne d).symm] <;> split_ifs <;> simp_all)
    · simp [if_neg h0]

theorem foldl_normStep_day (d : Fin 7) (rs : List Range) (acc : WeekRanges) (dq : Fin 7) :
    (rs.foldl (normStep d) acc) dq = acc dq ++ rs.flatMap (contrib d dq) := by
  induction rs generalizing acc with
  | nil => simp
  | cons r rs ih =>
    rw [List.foldl_cons, ih, normStep_day, List.flatMap_cons, List.append_assoc]

theorem normalizeWeek_day (x : WeekRanges) (dq : Fin 7) :
    normalizeWeek x dq
      = (List.finRange 7).flatMap (fun d => (x d).flatMap (contrib d dq)) := by
  unfold normalizeWeek
  have main : ∀ (l : List (Fin 7)) (acc : WeekRanges),
      (l.foldl (fun acc d => (x d).foldl (normStep d) acc) acc) dq
        = acc dq ++ l.flatMap (fun d => (x d).flatMap (contrib d dq)) := by
    intro l
    induction l with
    | nil => intro acc; simp
    | cons d l ih =>
      intro acc
      rw [List.foldl_cons, ih, foldl_normStep_day, List.flatMap_cons, List.append_assoc]
  rw [main]
  rfl

theorem flatMap_eq_nil_of_all_nil {α β : Type} (l : List α) (g : α → List β)
    (h : ∀ a ∈ l, g a = []) : l.flatMap g = [] := by
  induction l with
  | nil => rfl
  | cons a l ih =>
    rw [List.flatMap_cons, h a (by simp), List.nil_append]
    exact ih (fun a ha => h a (by simp [ha]))

theorem flatMap_single_day {β : Type} (l : List (Fin 7)) (g : Fin 7 → List β) (dq : Fin 7)
    (hl : l.Nodup) (hmem : dq ∈ l) (hz : ∀ d ∈ l, d ≠ dq → g d = []) :
    l.flatMap g = g dq := by
  induction l with
  | nil => cases hmem
  | cons d l ih =>
    rw [List.flatMap_cons]
    rw [List.nodup_cons] at hl
    by_cases hd : d = dq
    · rw [hd]
      have hnil : l.flatMap g = [] := by
        refine flatMap_eq_nil_of_all_nil l g (fun a ha => hz a (by simp [ha]) ?_)
        intro heq
        rw [heq, ← hd] at ha
        exact hl.1 ha
      rw [hnil, List.append_nil]
    · rw [hz d (by simp) hd, List.nil_append]
      refine ih hl.2 ?_ (fun a ha => hz a (by simp [ha]))
      rcases List.mem_cons.mp hmem with heq | hm
      · exact absurd heq.symm hd
      · exact hm

theorem flatMap_id_of_singleton {α : Type} (l : List α) (g : α → List α)
    (h : ∀ r ∈ l, g r = [r]) : l.flatMap g = l := by
  induction l with
  | nil => rfl
  | cons a l ih =>
    rw [List.flatMap_cons, h a (by simp), ih (fun r hr => h r (by simp [hr]))]
    rfl

theorem normalizeWeek_fix (w : WeekRanges)
    (hg : ∀ d : Fin 7, ∀ r ∈ w d, ∃ sN eN : Nat,
      r = { startMin := (15 * sN : Nat), endMin := (15 * eN : Nat) } ∧ sN < eN ∧ eN ≤ 96) :
    normalizeWeek w = w := by
  funext dq
  rw [normalizeWeek_day]
  have hone : ∀ d ∈ List.finRange 7, d ≠ dq → (w d).flatMap (contrib d dq) = [] := by
    intro d _ hd
    refine flatMap_eq_nil_of_all_nil _ _ (fun r hr => ?_)
    obtain ⟨sN, eN, hre, hlt, hle⟩ := hg d r hr
    have hsv : toInt32 r.startMin = (15 * sN : Nat) := by
      rw [hre]
      exact toInt32_eq_self _ (by positivity) (by push_cast; omega)
    have hev : toInt32 r.endMin = (15 * eN : Nat) := by
      rw [hre]
      exact toInt32_eq_self _ (by positivity) (by push_cast; omega)
    unfold contrib
    rw [hsv, hev, if_pos (by push_cast; omega), if_neg (fun h => hd h.symm)]
  have hself : (w dq).flatMap (contrib dq dq) = w dq := by
    have hsingle : ∀ r ∈ w dq, contrib dq dq r = [r] := by
      intro r hr
      obtain ⟨sN, eN, hre, hlt, hle⟩ := hg dq r hr
      have hsv : toInt32 r.startMin = (15 * sN : Nat) := by
        rw [hre]
        exact toInt32_eq_self _ (by positivity) (by push_cast; omega)
      have hev : toInt32 r.endMin = (15 * eN : Nat) := by
        rw [hre]
        exact toInt32_eq_self _ (by positivity) (by push_cast; omega)
      have hrs : round15 ((15 * sN : Nat) : Int) = ((15 * sN : Nat) : Int) := by
        push_cast
        exact round15_mul15 (sN : Int)
      have hre' : round15 ((15 * eN : Nat) : Int) = ((15 * eN : Nat) : Int) := by
        push_cast
        exact round15_mul15 (eN : Int)
      unfold contrib
      rw [hsv, hev, if_pos (by push_cast; omega), if_pos rfl, hrs, hre',
        if_pos (by push_cast; omega), hre]
    exact flatMap_id_of_singleton _ _ hsingle
  rw [flatMap_single_day _ _ dq (List.nodup_finRange 7) (List.mem_finRange dq) hone, hself]

/-! ## Specification of the slot sweep -/

/-- Forward characterization of a run list produced by the sweep over a
claimability predicate, from cursor c up to bound B: runs are aligned,
ordered, claimable inside, maximal, with nothing claimable in the gaps. -/
def FSpec (ok : Nat → Bool) (B : Nat) : Nat → List Range → Prop
  | c, [] => ∀ t, c ≤ t → t < B → ok t = false
  | c, r :: rs => ∃ s e : Nat,
      r = { startMin := ((15 * s : Nat) : Int), endMin := ((15 * e : Nat) : Int) } ∧
      c ≤ s ∧ s < e ∧ e ≤ B ∧
      (∀ t, c ≤ t → t < s → ok t = false) ∧
      (∀ t, s ≤ t → t < e → ok t = true) ∧
      (e < B → ok e = false) ∧ FSpec ok B e rs

/-- Backward (most-recent-first) characterization of the scan accumulator
after processing slots below n. -/
def RevSpec (ok : Nat → Bool) : Nat → List Range → Prop
  | n, [] => ∀ t, t < n → ok t = false
  | n, r :: rest => ∃ s e : Nat,
      r = { startMin := ((15 * s : Nat) : Int), endMin := ((15 * e : Nat) : Int) } ∧
      s < e ∧ e ≤ n ∧
      (0 < s → ok (s - 1) = false) ∧
      (∀ t, s ≤ t → t < e → ok t = true) ∧
      (∀ t, e ≤ t → t < n → ok t = false) ∧ RevSpec ok s rest

theorem mul15_int_inj (a b : Nat) (h : ((15 * a : Nat) : Int) = ((15 * b : Nat) : Int)) :
    a = b := by
  push_cast at h
  omega

theorem revSpec_false_step (ok : Nat → Bool) (n : Nat) (acc : List Range)
    (h : RevSpec ok n acc) (hn : ok n = false) : RevSpec ok (n + 1) acc := by
  cases acc with
  | nil =>
    intro t ht
    rcases Nat.lt_or_ge t n with h' | h'
    · exact h t h'
    · have : t = n := by omega
      rw [this]
      exact hn
  | cons r rest =>
    obtain ⟨s, e, hr, hse, hen, hlm, hin, hgap, hrest⟩ := h
    refine ⟨s, e, hr, hse, by omega, hlm, hin, ?_, hrest⟩
    intro t hte htn
    rcases Nat.lt_or_ge t n with h' | h'
    · exact hgap t hte h'
    · have : t = n := by omega
      rw [this]
      exact hn

theorem revSpec_true_step (ok : Nat → Bool) (n : Nat) (acc : List Range)
    (h : RevSpec ok n acc) (hn : ok n = true) : RevSpec ok (n + 1) (addSlot acc n) := by
  cases acc with
  | nil =>
    refine ⟨n, n + 1, ?_, by omega, by omega, ?_, ?_, ?_, ?_⟩
    · show ({ startMin := (15 * n : Int), endMin := 15 * (n : Int) + 15 } : Range) = _
      push_cast
      constructor <;> ring_nf
    · intro hpos
      exact h (n - 1) (by omega)
    · intro t ht1 ht2
      have : t = n := by omega
      rw [this]
      exact hn
    · intro t ht1 ht2
      omega
    · intro t ht
      exact h t ht
  | cons r rest =>
    obtain ⟨s, e, hr, hse, hen, hlm, hin, hgap, hrest⟩ := h
    show RevSpec ok (n + 1)
      (if r.endMin = 15 * (n : Int) then
        { startMin := r.startMin, endMin := 15 * (n : Int) + 15 } :: rest
       else { startMin := 15 * (n : Int), endMin := 15 * (n : Int) + 15 } :: r :: rest)
    by_cases hext : r.endMin = 15 * (n : Int)
    · rw [if_pos hext]
      have he_n : e = n := by
        have : ((15 * e : Nat) : Int) = 15 * (n : Int) := by rw [← hext, hr]
        push_cast at this
        omega
      refine ⟨s, n + 1, ?_, by omega, by omega, hlm, ?_, ?_, ?_⟩
      · have hstart : r.startMin = ((15 * s : Nat) : Int) := by rw [hr]
        show ({ startMin := r.startMin, endMin := 15 * (n : Int) + 15 } : Range) = _
        rw [hstart]
        have : (15 * (n : Int)) + 15 = ((15 * (n + 1) : Nat) : Int) := by push_cast; ring
        rw [this]
      · intro t ht1 ht2
        rcases Nat.lt_or_ge t e with h' | h'
        · exact hin t ht1 h'
        · have : t = n := by omega
          rw [this]
          exact hn
      · intro t ht1 ht2
        omega
      · exact hrest
    · rw [if_neg hext]
      have he_lt : e < n := by
        rcases Nat.lt_or_ge e n with h' | h'
        · exact h'
        · have : e = n := by omega
          rw [this] at hr
          exact absurd (by rw [hr]; push_cast; ring) hext
      refine ⟨n, n + 1, ?_, by omega, by omega, ?_, ?_, ?_, ?_⟩
      · show ({ startMin := (15 * n : Int), endMin := 15 * (n : Int) + 15 } : Range) = _
        push_cast
        constructor <;> ring_nf
      · intro hpos
        exact hgap (n - 1) (by omega) (by omega)
      · intro t ht1 ht2
        have : t = n := by omega
        rw [this]
        exact hn
      · intro t ht1 ht2
        omega
      · exact ⟨s, e, hr, hse, by omega, hlm, hin, fun t hte htn => hgap t hte (by omega), hrest⟩

/-- The scan accumulator after processing the first n slots. -/
def scanAcc (ok : Nat → Bool) (n : Nat) : List Range :=
  (List.range n).foldl (fun runs s => if ok s then addSlot runs s else runs) []

theorem revSpec_scanAcc (ok : Nat → Bool) (n : Nat) : RevSpec ok n (scanAcc ok n) := by
  induction n with
  | zero =>
    intro t ht
    omega
  | succ n ih =>
    have hstep : scanAcc ok (n + 1)
        = if ok n then addSlot (scanAcc ok n) n else scanAcc ok n := by
      unfold scanAcc
      rw [List.range_succ, List.foldl_append, List.foldl_cons, List.foldl_nil]
    rw [hstep]
    by_cases hn : ok n = true
    · rw [if_pos hn]
      exact revSpec_true_step ok n _ ih hn
    · rw [if_neg hn]
      exact revSpec_false_step ok n _ ih (by
        cases h : ok n
        · rfl
        · exact absurd h hn)

theorem sweepRuns_eq_scan (ok : Nat → Bool) : sweepRuns ok = (scanAcc ok 96).reverse := rfl

theorem fspec_append (ok : Nat → Bool) (B : Nat) (s e : Nat)
    (hse : s < e) (heB : e ≤ B)
    (hlm : 0 < s → ok (s - 1) = false)
    (hin : ∀ t, s ≤ t → t < e → ok t = true)
    (hrg : ∀ t, e ≤ t → t < B → ok t = false) :
    ∀ (l : List Range) (c : Nat), c ≤ s → FSpec ok s c l →
      FSpec ok B c (l ++ [{ startMin := ((15 * s : Nat) : Int),
                            endMin := ((15 * e : Nat) : Int) }]) := by
  intro l
  induction l with
  | nil =>
    intro c hcs hl
    exact ⟨s, e, rfl, hcs, hse, heB, fun t ht1 ht2 => hl t ht1 ht2, hin, hrg e le_rfl, hrg⟩
  | cons r l ih =>
    intro c hcs hl
    obtain ⟨s₁, e₁, hr, hcs₁, hse₁, he₁s, hgap₁, hin₁, hmax₁, hrest₁⟩ := hl
    refine ⟨s₁, e₁, hr, hcs₁, hse₁, by omega, hgap₁, hin₁, ?_, ih e₁ he₁s hrest₁⟩
    intro he₁B
    rcases Nat.lt_or_ge e₁ s with h' | h'
    · exact hmax₁ h'
    · have he₁_eq : e₁ = s := by omega
      exfalso
      have h1 : ok (s - 1) = false := hlm (by omega)
      have h2 : ok (e₁ - 1) = true := hin₁ (e₁ - 1) (by omega) (by omega)
      rw [he₁_eq] at h2
      rw [h1] at h2
      cases h2

theorem fspec_of_revSpec (ok : Nat → Bool) :
    ∀ (acc : List Range) (n : Nat), RevSpec ok n acc → FSpec ok n 0 acc.reverse := by
  intro acc
  induction acc with
  | nil =>
    intro n h
    exact fun t _ ht => h t ht
  | cons r rest ih =>
    intro n h
    obtain ⟨s, e, hr, hse, hen, hlm, hin, hgap, hrest⟩ := h
    rw [List.reverse_cons, hr]
    exact fspec_append ok n s e hse hen hlm hin hgap rest.reverse 0 (by omega) (ih s hrest)

theorem fspec_sweepRuns (ok : Nat → Bool) : FSpec ok 96 0 (sweepRuns ok) := by
  rw [sweepRuns_eq_scan]
  exact fspec_of_revSpec ok _ 96 (revSpec_scanAcc ok 96)

theorem fspec_unique (ok : Nat → Bool) (B : Nat) :
    ∀ (rs₁ rs₂ : List Range) (c : Nat), FSpec ok B c rs₁ → FSpec ok B c rs₂ → rs₁ = rs₂ := by
  intro rs₁
  induction rs₁ with
  | nil =>
    intro rs₂ c h₁ h₂
    cases rs₂ with
    | nil => rfl
    | cons r rs =>
      obtain ⟨s, e, hr, hcs, hse, heB, hgap, hin, hmax, hrest⟩ := h₂
      have := h₁ s hcs (by omega)
      have h' := hin s le_rfl hse
      rw [this] at h'
      cases h'
  | cons r₁ l₁ ih =>
    intro rs₂ c h₁ h₂
    cases rs₂ with
    | nil =>
      obtain ⟨s, e, hr, hcs, hse, heB, hgap, hin, hmax, hrest⟩ := h₁
      have := h₂ s hcs (by omega)
      have h' := hin s le_rfl hse
      rw [this] at h'
      cases h'
    | cons r₂ l₂ =>
      obtain ⟨s₁, e₁, hr₁, hcs₁, hse₁, heB₁, hgap₁, hin₁, hmax₁, hrest₁⟩ := h₁
      obtain ⟨s₂, e₂, hr₂, hcs₂, hse₂, heB₂, hgap₂, hin₂, hmax₂, hrest₂⟩ := h₂
      have hs : s₁ = s₂ := by
        rcases Nat.lt_trichotomy s₁ s₂ with h | h | h
        · have hf := hgap₂ s₁ hcs₁ h
          have ht := hin₁ s₁ le_rfl hse₁
          rw [hf] at ht
          cases ht
        · exact h
        · have hf := hgap₁ s₂ hcs₂ h
          have ht := hin₂ s₂ le_rfl hse₂
          rw [hf] at ht
          cases ht
      have he : e₁ = e₂ := by
        rcases Nat.lt_trichotomy e₁ e₂ with h | h | h
        · have ht := hin₂ e₁ (by omega) h
          have hf := hmax₁ (by omega)
          rw [hf] at ht
          cases ht
        · exact h
        · have ht := hin₁ e₂ (by omega) h
          have hf := hmax₂ (by omega)
          rw [hf] at ht
          cases ht
      have hre : r₁ = r₂ := by
        rw [hr₁, hr₂, hs, he]
      rw [hre, ih l₂ e₁ hrest₁ (he ▸ hrest₂)]

/-! ## Tidy run lists and the day-level clip fixed point -/

/-- A tidy run list: aligned slot runs, strictly ordered with at least one
empty slot between consecutive runs, all within the day. -/
def Tidy : Nat → List Range → Prop
  | _, [] => True
  | c, r :: rs => ∃ s e : Nat,
      r = { startMin := ((15 * s : Nat) : Int), endMin := ((15 * e : Nat) : Int) } ∧
      c ≤ s ∧ s < e ∧ e ≤ 96 ∧ Tidy (e + 1) rs

theorem tidy_weaken (c' c : Nat) (rs : List Range) (hc : c' ≤ c) (h : Tidy c rs) :
    Tidy c' rs := by
  cases rs with
  | nil => trivial
  | cons r rs =>
    obtain ⟨s, e, hr, hcs, hse, he, ht⟩ := h
    exact ⟨s, e, hr, by omega, hse, he, ht⟩

theorem tidy_take (c : Nat) (rs : List Range) (n : Nat) (h : Tidy c rs) :
    Tidy c (rs.take n) := by
  induction rs generalizing c n with
  | nil => simp [Tidy]
  | cons r rs ih =>
    cases n with
    | zero => trivial
    | succ n =>
      obtain ⟨s, e, hr, hcs, hse, he, ht⟩ := h
      exact ⟨s, e, hr, hcs, hse, he, ih (e + 1) n ht⟩

theorem tidy_of_fspec (ok : Nat → Bool) :
    ∀ (rs : List Range) (c : Nat), FSpec ok 96 c rs → Tidy c rs := by
  intro rs
  induction rs with
  | nil => intro c _; trivial
  | cons r rs ih =>
    intro c h
    obtain ⟨s, e, hr, hcs, hse, he96, hgap, hin, hmax, hrest⟩ := h
    refine ⟨s, e, hr, hcs, hse, he96, ?_⟩
    have ht := ih e hrest
    cases rs with
    | nil => trivial
    | cons r' rs' =>
      obtain ⟨s', e', hr', hcs', hse', he96', ht'⟩ := ht
      refine ⟨s', e', hr', ?_, hse', he96', ht'⟩
      rcases Nat.eq_or_lt_of_le hcs' with heq | hlt
      · exfalso
        obtain ⟨s₂, e₂, hr₂, hcs₂, hse₂, he₂, hgap₂, hin₂, hmax₂, hrest₂⟩ := hrest
        have hs2 : s' = s₂ := by
          rw [hr'] at hr₂
          have := (Range.mk.injEq _ _ _ _).mp hr₂
          exact mul15_int_inj _ _ this.1
        have hok : ok s₂ = true := hin₂ s₂ le_rfl hse₂
        have hef : ok e = false := hmax (by omega)
        rw [← hs2, ← heq] at hok
        rw [hef] at hok
        cases hok
      · omega

theorem tidy_mem (c : Nat) (rs : List Range) (h : Tidy c rs) :
    ∀ r ∈ rs, ∃ s e : Nat,
      r = { startMin := ((15 * s : Nat) : Int), endMin := ((15 * e : Nat) : Int) } ∧
      c ≤ s ∧ s < e ∧ e ≤ 96 := by
  induction rs generalizing c with
  | nil => intro r hr; cases hr
  | cons r' rs ih =>
    intro r hr
    obtain ⟨s, e, hre, hcs, hse, he, ht⟩ := h
    rcases List.mem_cons.mp hr with rfl | hm
    · exact ⟨s, e, hre, hcs, hse, he⟩
    · obtain ⟨s', e', hre', hcs', hse', he'⟩ := ih (e + 1) ht r hm
      exact ⟨s', e', hre', by omega, hse', he'⟩

theorem tidy_chain_gap : ∀ (rs : List Range) (c : Nat), Tidy c rs →
    List.Chain' (fun a b => a.endMin < b.startMin) rs := by
  intro rs
  induction rs with
  | nil => intro c _; trivial
  | cons r rs ih =>
    intro c h
    obtain ⟨s, e, hre, hcs, hse, he, ht⟩ := h
    cases rs with
    | nil => simp
    | cons r' rs' =>
      rw [List.chain'_cons]
      obtain ⟨s', e', hre', hcs', hse', he', ht'⟩ := ht
      refine ⟨?_, ih (e + 1) ⟨s', e', hre', hcs', hse', he', ht'⟩⟩
      rw [hre, hre']
      show ((15 * e : Nat) : Int) < ((15 * s' : Nat) : Int)
      push_cast
      omega

theorem tidy_pairwise_start : ∀ (rs : List Range) (c : Nat), Tidy c rs →
    rs.Pairwise (fun a b => a.startMin ≤ b.startMin) := by
  have hlb : ∀ (rs : List Range) (c : Nat), Tidy c rs →
      ∀ r ∈ rs, ((15 * c : Nat) : Int) ≤ r.startMin := by
    intro rs
    induction rs with
    | nil => intro c _ r hr; cases hr
    | cons r' rs ih =>
      intro c h r hr
      obtain ⟨s, e, hre, hcs, hse, he, ht⟩ := h
      rcases List.mem_cons.mp hr with rfl | hm
      · rw [hre]
        show ((15 * c : Nat) : Int) ≤ ((15 * s : Nat) : Int)
        push_cast
        omega
      · have := ih (e + 1) ht r hm
        have hc : ((15 * c : Nat) : Int) ≤ ((15 * (e + 1) : Nat) : Int) := by
          push_cast
          omega
        omega
  intro rs
  induction rs with
  | nil => intro c _; trivial
  | cons r rs ih =>
    intro c h
    obtain ⟨s, e, hre, hcs, hse, he, ht⟩ := h
    rw [List.pairwise_cons]
    refine ⟨?_, ih (e + 1) ht⟩
    intro b hb
    have hblb := hlb rs (e + 1) ht b hb
    rw [hre]
    show ((15 * s : Nat) : Int) ≤ b.startMin
    have : ((15 * s : Nat) : Int) ≤ ((15 * (e + 1) : Nat) : Int) := by
      push_cast
      omega
    omega

/-- Slot t lies inside some run of the list. -/
def coveredBy (rs : List Range) (t : Nat) : Prop :=
  ∃ r ∈ rs, ∃ s e : Nat,
    r = { startMin := ((15 * s : Nat) : Int), endMin := ((15 * e : Nat) : Int) } ∧
    s ≤ t ∧ t < e

theorem coversB_eq_coveredBy (rs : List Range)
    (hsh : ∀ r ∈ rs, ∃ s e : Nat,
      r = { startMin := ((15 * s : Nat) : Int), endMin := ((15 * e : Nat) : Int) } ∧
      s ≤ 96 ∧ e ≤ 96) (t : Nat) :
    coversB rs t = true ↔ coveredBy rs t := by
  unfold coversB coveredBy
  rw [List.any_eq_true]
  constructor
  · rintro ⟨r, hr, hdec⟩
    obtain ⟨s, e, hre, hs96, he96⟩ := hsh r hr
    have hcond := of_decide_eq_true hdec
    have hms : minsToSlot r.startMin = s := by
      rw [hre]
      show minsToSlot ((15 * s : Nat) : Int) = s
      have : ((15 * s : Nat) : Int) = 15 * (s : Int) := by push_cast; ring
      rw [this]
      exact minsToSlot_mul15 s hs96
    have hme : minsToSlot r.endMin = e := by
      rw [hre]
      show minsToSlot ((15 * e : Nat) : Int) = e
      have : ((15 * e : Nat) : Int) = 15 * (e : Int) := by push_cast; ring
      rw [this]
      exact minsToSlot_mul15 e he96
    rw [hms, hme] at hcond
    exact ⟨r, hr, s, e, hre, hcond.1, hcond.2⟩
  · rintro ⟨r, hr, s, e, hre, hst, hte⟩
    obtain ⟨s', e', hre', hs96', he96'⟩ := hsh r hr
    have hs : s = s' := by
      rw [hre] at hre'
      have := (Range.mk.injEq _ _ _ _).mp hre'
      exact mul15_int_inj _ _ this.1
    have he : e = e' := by
      rw [hre] at hre'
      have := (Range.mk.injEq _ _ _ _).mp hre'
      exact mul15_int_inj _ _ this.2
    refine ⟨r, hr, decide_eq_true ?_⟩
    have hms : minsToSlot r.startMin = s := by
      rw [hre]
      show minsToSlot ((15 * s : Nat) : Int) = s
      have hc : ((15 * s : Nat) : Int) = 15 * (s : Int) := by push_cast; ring
      rw [hc]
      exact minsToSlot_mul15 s (by omega)
    have hme : minsToSlot r.endMin = e := by
      rw [hre]
      show minsToSlot ((15 * e : Nat) : Int) = e
      have hc : ((15 * e : Nat) : Int) = 15 * (e : Int) := by push_cast; ring
      rw [hc]
      exact minsToSlot_mul15 e (by omega)
    rw [hms, hme]
    exact ⟨hst, hte⟩

theorem covered_lb (rs : List Range) (c t : Nat) (h : Tidy c rs) (hc : coveredBy rs t) :
    c ≤ t := by
  induction rs generalizing c with
  | nil => obtain ⟨r, hr, -⟩ := hc; cases hr
  | cons r' rs ih =>
    obtain ⟨s, e, hre, hcs, hse, he, ht⟩ := h
    obtain ⟨r, hr, s', e', hre', hst, hte⟩ := hc
    rcases List.mem_cons.mp hr with rfl | hm
    · have hs : s' = s := by
        rw [hre'] at hre
        have := (Range.mk.injEq _ _ _ _).mp hre
        exact mul15_int_inj _ _ this.1
      omega
    · have := ih (e + 1) ht ⟨r, hm, s', e', hre', hst, hte⟩
      omega

theorem coveredBy_tail (r : Range) (rs : List Range) (t : Nat) (s e : Nat)
    (hre : r = { startMin := ((15 * s : Nat) : Int), endMin := ((15 * e : Nat) : Int) })
    (hte : e ≤ t) :
    (coveredBy (r :: rs) t ↔ coveredBy rs t) := by
  constructor
  · rintro ⟨r', hr', s', e', hre', hst', hte'⟩
    rcases List.mem_cons.mp hr' with rfl | hm
    · exfalso
      have he : e' = e := by
        rw [hre'] at hre
        have := (Range.mk.injEq _ _ _ _).mp hre
        exact mul15_int_inj _ _ this.2
      omega
    · exact ⟨r', hm, s', e', hre', hst', hte'⟩
  · rintro ⟨r', hm, s', e', hre', hst', hte'⟩
    exact ⟨r', by simp [hm], s', e', hre', hst', hte'⟩

theorem fspec_of_tidy (okb : Nat → Bool) :
    ∀ (rs : List Range) (c : Nat), Tidy c rs →
      (∀ t, c ≤ t → (okb t = true ↔ coveredBy rs t)) → FSpec okb 96 c rs := by
  intro rs
  induction rs with
  | nil =>
    intro c _ hiff
    intro t hct _
    cases h : okb t with
    | false => rfl
    | true =>
      obtain ⟨r, hr, -⟩ := (hiff t hct).mp h
      cases hr
  | cons r rs ih =>
    intro c h hiff
    obtain ⟨s, e, hre, hcs, hse, he96, ht⟩ := h
    refine ⟨s, e, hre, hcs, hse, he96, ?_, ?_, ?_, ?_⟩
    · intro t hct hts
      cases hb : okb t with
      | false => rfl
      | true =>
        exfalso
        obtain ⟨r', hr', s', e', hre', hst', hte'⟩ := (hiff t hct).mp hb
        rcases List.mem_cons.mp hr' with rfl | hm
        · have hs : s' = s := by
            rw [hre'] at hre
            have := (Range.mk.injEq _ _ _ _).mp hre
            exact mul15_int_inj _ _ this.1
          omega
        · have := covered_lb rs (e + 1) t ht ⟨r', hm, s', e', hre', hst', hte'⟩
          omega
    · intro t hst hte
      exact (hiff t (by omega)).mpr ⟨r, by simp, s, e, hre, hst, hte⟩
    · intro he96'
      cases hb : okb e with
      | false => rfl
      | true =>
        exfalso
        obtain ⟨r', hr', s', e', hre', hst', hte'⟩ := (hiff e (by omega)).mp hb
        rcases List.mem_cons.mp hr' with rfl | hm
        · have hee : e' = e := by
            rw [hre'] at hre
            have := (Range.mk.injEq _ _ _ _).mp hre
            exact mul15_int_inj _ _ this.2
          omega
        · have := covered_lb rs (e + 1) e ht ⟨r', hm, s', e', hre', hst', hte'⟩
          omega
    · refine ih e (tidy_weaken e (e + 1) rs (by omega) ht) ?_
      intro t het
      rw [hiff t (by omega)]
      exact coveredBy_tail r rs t s e hre het

/-- FSpec member facts: every run is aligned, within the day, and entirely
claimable. -/
theorem fspec_mem (ok : Nat → Bool) (B : Nat) :
    ∀ (rs : List Range) (c : Nat), FSpec ok B c rs →
      ∀ r ∈ rs, ∃ s e : Nat,
        r = { startMin := ((15 * s : Nat) : Int), endMin := ((15 * e : Nat) : Int) } ∧
        s < e ∧ e ≤ B ∧ (∀ t, s ≤ t → t < e → ok t = true) := by
  intro rs
  induction rs with
  | nil => intro c _ r hr; cases hr
  | cons r' rs ih =>
    intro c h r hr
    obtain ⟨s, e, hre, hcs, hse, he, hgap, hin, hmax, hrest⟩ := h
    rcases List.mem_cons.mp hr with rfl | hm
    · exact ⟨s, e, hre, hse, he, hin⟩
    · exact ih e hrest r hm

/-! ### The merge loop is the identity on gap-separated run lists -/

theorem mergeGo_no_merge :
    ∀ (rs acc : List Range),
      (∀ a ∈ acc.head?, ∀ b ∈ rs.head?, a.endMin < b.startMin) →
      List.Chain' (fun a b => a.endMin < b.startMin) rs →
      mergeGo acc rs = acc.reverse ++ rs := by
  intro rs
  induction rs with
  | nil =>
    intro acc _ _
    show mergeGo acc [] = acc.reverse ++ []
    rw [List.append_nil]
    cases acc <;> rfl
  | cons r rs ih =>
    intro acc hlink hchain
    cases acc with
    | nil =>
      show mergeGo [r] rs = [] ++ r :: rs
      have hih := ih [r] ?hl (hchain.tail)
      case hl =>
        intro a ha b hb
        simp only [List.head?_cons, Option.mem_def, Option.some_inj] at ha
        cases rs with
        | nil => simp at hb
        | cons r' rs' =>
          rw [List.chain'_cons] at hchain
          simp only [List.head?_cons, Option.mem_def, Option.some_inj] at hb
          rw [← ha, ← hb]
          exact hchain.1
      rw [hih]
      rfl
    | cons last acc' =>
      have hgap : last.endMin < r.startMin := by
        have := hlink last (by rfl) r (by rfl)
        exact this
      show mergeGo (last :: acc') (r :: rs) = (last :: acc').reverse ++ (r :: rs)
      unfold mergeGo
      rw [if_neg (by omega)]
      have hih := ih (r :: last :: acc') ?hl2 hchain.tail
      case hl2 =>
        intro a ha b hb
        simp only [List.head?_cons, Option.mem_def, Option.some_inj] at ha
        cases rs with
        | nil => simp at hb
        | cons r' rs' =>
          rw [List.chain'_cons] at hchain
          simp only [List.head?_cons, Option.mem_def, Option.some_inj] at hb
          rw [← ha, ← hb]
          exact hchain.1
      rw [hih]
      simp [List.reverse_cons, List.append_assoc]

theorem mergeRanges_of_chain (rs : List Range)
    (h : List.Chain' (fun a b => a.endMin < b.startMin) rs) : mergeRanges rs = rs := by
  unfold mergeRanges
  rw [mergeGo_no_merge rs [] (by intro a ha; cases ha) h]
  rfl

theorem clipDay_eq_take (occd : Nat → Option String) (T : String) (nd : List Range) :
    clipDay occd T nd = (sweepRuns (okSlot occd T nd)).take 4 := by
  have hf := fspec_sweepRuns (okSlot occd T nd)
  have ht := tidy_of_fspec _ _ _ hf
  show (mergeRanges (stableSortBy Range.startMin (sweepRuns (okSlot occd T nd)))).take 4
      = (sweepRuns (okSlot occd T nd)).take 4
  rw [stableSortBy_of_sorted Range.startMin _ (tidy_pairwise_start _ _ ht),
    mergeRanges_of_chain _ (tidy_chain_gap _ _ ht)]

/-- The day-level fixed point: clipping a day's own clipped result again,
against the same occupancy column, returns it unchanged. -/
theorem clipDay_fixed (occd : Nat → Option String) (T : String) (nd : List Range) :
    clipDay occd T (clipDay occd T nd) = clipDay occd T nd := by
  have hf₁ := fspec_sweepRuns (okSlot occd T nd)
  have hw_eq : clipDay occd T nd = (sweepRuns (okSlot occd T nd)).take 4 :=
    clipDay_eq_take occd T nd
  have htw : Tidy 0 ((sweepRuns (okSlot occd T nd)).take 4) :=
    tidy_take _ _ _ (tidy_of_fspec _ _ _ hf₁)
  have hmemw : ∀ r ∈ (sweepRuns (okSlot occd T nd)).take 4, r ∈ sweepRuns (okSlot occd T nd) :=
    fun r hr => List.take_subset _ _ hr
  have hshape : ∀ r ∈ (sweepRuns (okSlot occd T nd)).take 4, ∃ s e : Nat,
      r = { startMin := ((15 * s : Nat) : Int), endMin := ((15 * e : Nat) : Int) } ∧
      s ≤ 96 ∧ e ≤ 96 := by
    intro r hr
    obtain ⟨s, e, hre, hse, he, -⟩ := fspec_mem _ _ _ _ hf₁ r (hmemw r hr)
    exact ⟨s, e, hre, by omega, he⟩
  have hfree : ∀ t, coveredBy ((sweepRuns (okSlot occd T nd)).take 4) t →
      decide (occd t = none ∨ occd t = some T) = true := by
    rintro t ⟨r, hr, s, e, hre, hst, hte⟩
    obtain ⟨s', e', hre', hse', heB', hins'⟩ := fspec_mem _ _ _ _ hf₁ r (hmemw r hr)
    have hs : s = s' := by
      rw [hre] at hre'
      have := (Range.mk.injEq _ _ _ _).mp hre'
      exact mul15_int_inj _ _ this.1
    have he : e = e' := by
      rw [hre] at hre'
      have := (Range.mk.injEq _ _ _ _).mp hre'
      exact mul15_int_inj _ _ this.2
    have hok := hins' t (by omega) (by omega)
    unfold okSlot at hok
    simp only [Bool.and_eq_true] at hok
    exact hok.2
  have hiff : ∀ t, 0 ≤ t →
      (okSlot occd T ((sweepRuns (okSlot occd T nd)).take 4) t = true ↔
        coveredBy ((sweepRuns (okSlot occd T nd)).take 4) t) := by
    intro t _
    unfold okSlot
    rw [Bool.and_eq_true]
    constructor
    · rintro ⟨hc, -⟩
      exact (coversB_eq_coveredBy _ hshape t).mp hc
    · intro hcov
      exact ⟨(coversB_eq_coveredBy _ hshape t).mpr hcov, hfree t hcov⟩
  have hf₂ := fspec_of_tidy _ _ 0 htw hiff
  have hs₂ : sweepRuns (okSlot occd T ((sweepRuns (okSlot occd T nd)).take 4))
      = (sweepRuns (okSlot occd T nd)).take 4 :=
    fspec_unique _ 96 _ _ 0 (fspec_sweepRuns _) hf₂
  rw [hw_eq, clipDay_eq_take, hs₂, List.take_take]
  norm_num

/-! ## Occupancy invariance under a save of the same task (claim C2) -/

theorem jGet2_jSet2_inner_ne {α : Type} (o : JsObj (JsObj α)) (a b : String) (v : α)
    (c k : String) (hk : k ≠ b) : jGet2 (jSet2 o a b v) c k = jGet2 o c k := by
  rw [jGet2_jSet2, if_neg (fun h => hk h.2)]

theorem jGet2_jDel2_inner_ne {α : Type} (o : JsObj (JsObj α)) (a b : String)
    (c k : String) (hk : k ≠ b) : jGet2 (jDel2 o a b) c k = jGet2 o c k := by
  rw [jGet2_jDel2, if_neg (fun h => hk h.2)]

theorem saveRanges_tasks (st : Store) (ctx : WeekCtx) (T : String) (sc : Scope)
    (x : WeekRanges) : (saveRanges st ctx T sc x).tasks = st.tasks := by
  cases sc <;>
    · simp only [saveRanges]
      repeat' split
      all_goals rfl

theorem saveRecurring_data (st : Store) (ctx : WeekCtx) (T : String) (x : WeekRanges) :
    (∃ w, (saveRanges st ctx T Scope.recurring x).EXACT = jSet st.EXACT T w) ∧
    (saveRanges st ctx T Scope.recurring x).byDate = st.byDate ∧
    (saveRanges st ctx T Scope.recurring x).byWeek = st.byWeek ∧
    (saveRanges st ctx T Scope.recurring x).byMonth = st.byMonth := by
  refine ⟨?_, ?_, ?_, ?_⟩ <;>
    · simp only [saveRanges]
      repeat' split
      all_goals first | rfl | exact ⟨_, rfl⟩

theorem saveWeek_data (st : Store) (ctx : WeekCtx) (T : String) (x : WeekRanges) :
    (saveRanges st ctx T Scope.week x).EXACT = st.EXACT ∧
    (saveRanges st ctx T Scope.week x).byDate = st.byDate ∧
    (∃ w, (saveRanges st ctx T Scope.week x).byWeek = jSet2 st.byWeek ctx.wkKey T w) ∧
    (saveRanges st ctx T Scope.week x).byMonth = st.byMonth := by
  refine ⟨?_, ?_, ?_, ?_⟩ <;>
    · simp only [saveRanges]
      repeat' split
      all_goals first | rfl | exact ⟨_, rfl⟩

theorem saveMonth_data (st : Store) (ctx : WeekCtx) (T : String) (x : WeekRanges) :
    (saveRanges st ctx T Scope.month x).EXACT = st.EXACT ∧
    (saveRanges st ctx T Scope.month x).byDate = st.byDate ∧
    (saveRanges st ctx T Scope.month x).byWeek = st.byWeek ∧
    (∃ w, (saveRanges st ctx T Scope.month x).byMonth = jSet2 st.byMonth ctx.moKey T w) := by
  refine ⟨?_, ?_, ?_, ?_⟩ <;>
    · simp only [saveRanges]
      repeat' split
      all_goals first | rfl | exact ⟨_, rfl⟩

theorem saveToday_byDate_reads (st : Store) (ctx : WeekCtx) (T : String) (x : WeekRanges)
    (k : String) (hk : k ≠ T) (a : String) :
    jGet2 (saveRanges st ctx T Scope.today x).byDate a k = jGet2 st.byDate a k := by
  simp only [saveRanges]
  repeat' split
  all_goals simp [jGet2_jSet2, jGet2_jDel2, hk]

/-- seqForTask depends only on the three order-stamp lookups it performs. -/
theorem seqForTask_reads (st st' : Store) (ctx : WeekCtx) (k : String)
    (hw : jGet2 st'.orderWeek ctx.wkKey k = jGet2 st.orderWeek ctx.wkKey k)
    (hm : jGet2 st'.orderMonth ctx.moKey k = jGet2 st.orderMonth ctx.moKey k)
    (hr : jGet st'.orderRecurring k = jGet st.orderRecurring k) :
    seqForTask st' ctx k = seqForTask st ctx k := by
  unfold seqForTask
  rw [hw, hm, hr]

/-- effectiveExactForTask depends only on the store lookups it performs. -/
theorem effective_reads (st st' : Store) (ctx : WeekCtx) (k : String)
    (hE : jGet st'.EXACT k = jGet st.EXACT k)
    (hW : jGet2 st'.byWeek ctx.wkKey k = jGet2 st.byWeek ctx.wkKey k)
    (hM : jGet2 st'.byMonth ctx.moKey k = jGet2 st.byMonth ctx.moKey k)
    (hD : ∀ dk : String, jGet2 st'.byDate dk k = jGet2 st.byDate dk k) :
    effectiveExactForTask st' ctx k = effectiveExactForTask st ctx k := by
  funext d
  simp only [effectiveExactForTask]
  rw [hE, hW, hM, hD (ctx.dateKey d)]

theorem foldl_skip_eq_filter {β : Type} (f : β → String → β) (T : String) :
    ∀ (l : List String) (g0 : β),
      l.foldl (fun g k => if k = T then g else f g k) g0
        = (l.filter (fun k => decide (k ≠ T))).foldl f g0 := by
  intro l
  induction l with
  | nil => intro g0; rfl
  | cons k l ih =>
    intro g0
    by_cases hk : k = T
    · simp [List.foldl_cons, List.filter_cons, hk, ih]
    · simp [List.foldl_cons, List.filter_cons, hk, ih]

theorem foldl_congr_mem {α β : Type} (f f' : β → α → β) :
    ∀ (l : List α) (g0 : β), (∀ k ∈ l, ∀ g, f g k = f' g k) →
      l.foldl f g0 = l.foldl f' g0 := by
  intro l
  induction l with
  | nil => intro g0 _; rfl
  | cons k l ih =>
    intro g0 h
    rw [List.foldl_cons, List.foldl_cons, h k (by simp) g0]
    exact ih _ (fun k' hk' g => h k' (by simp [hk']) g)

/-- The occupancy map that excludes the saved task depends only on the task
catalog and the sequences and effective ranges of the other tasks. -/
theorem buildOccupancyMap_reads (st st' : Store) (ctx : WeekCtx) (T : String)
    (ht : st'.tasks = st.tasks)
    (hs : ∀ k, k ≠ T → seqForTask st' ctx k = seqForTask st ctx k)
    (he : ∀ k, k ≠ T → effectiveExactForTask st' ctx k = effectiveExactForTask st ctx k) :
    buildOccupancyMap st' ctx T = buildOccupancyMap st ctx T := by
  unfold buildOccupancyMap
  rw [foldl_skip_eq_filter (fun g key => applyRangesToSlots key (effectiveExactForTask st' ctx key) g) T,
    foldl_skip_eq_filter (fun g key => applyRangesToSlots key (effectiveExactForTask st ctx key) g) T]
  unfold orderedTasks
  rw [filter_stableSortBy, filter_stableSortBy, ht]
  rw [stableSortBy_congr (fun k => (seqForTask st' ctx k : Int))
    (fun k => (seqForTask st ctx k : Int)) (st.tasks.filter (fun k => decide (k ≠ T)))
    (fun k hkmem => by
      have hkne : k ≠ T := by
        have := (List.mem_filter.mp hkmem).2
        simpa using this
      show ((seqForTask st' ctx k : Nat) : Int) = ((seqForTask st ctx k : Nat) : Int)
      rw [hs k hkne])]
  refine foldl_congr_mem _ _ _ _ (fun k hkmem g => ?_)
  have hkf : k ∈ st.tasks.filter (fun k => decide (k ≠ T)) :=
    (stableSortBy_perm (fun k => (seqForTask st ctx k : Int)) _).mem_iff.mp hkmem
  have hkne : k ≠ T := by
    have := (List.mem_filter.mp hkf).2
    simpa using this
  rw [he k hkne]

theorem seqForTask_after_save (st : Store) (ctx : WeekCtx) (sc : Scope) (T : String)
    (x : WeekRanges) (k : String) (hk : k ≠ T) :
    seqForTask (saveRanges st ctx T sc x) ctx k = seqForTask st ctx k := by
  cases sc with
  | recurring =>
    obtain ⟨hr, hw, hm, -⟩ := saveRecurring_proj st ctx T x
    refine seqForTask_reads st _ ctx k (by rw [hw]) (by rw [hm]) ?_
    rw [hr]
    split
    · rfl
    · rw [jGet_jSet, if_neg hk]
  | week =>
    obtain ⟨hw, hr, hm, -⟩ := saveWeek_proj st ctx T x
    refine seqForTask_reads st _ ctx k ?_ (by rw [hm]) (by rw [hr])
    rw [hw]
    split
    · rw [jGet2_jEnsure]
    · rw [jGet2_jSet2_inner_ne _ _ _ _ _ _ hk, jGet2_jEnsure]
  | month =>
    obtain ⟨hm, hr, hw, -⟩ := saveMonth_proj st ctx T x
    refine seqForTask_reads st _ ctx k (by rw [hw]) ?_ (by rw [hr])
    rw [hm]
    split
    · rw [jGet2_jEnsure]
    · rw [jGet2_jSet2_inner_ne _ _ _ _ _ _ hk, jGet2_jEnsure]
  | today =>
    obtain ⟨hr, hw, hm, -⟩ := saveToday_order_proj st ctx T x
    exact seqForTask_reads st _ ctx k (by rw [hw]) (by rw [hm]) (by rw [hr])

theorem effective_after_save (st : Store) (ctx : WeekCtx) (sc : Scope) (T : String)
    (x : WeekRanges) (k : String) (hk : k ≠ T) :
    effectiveExactForTask (saveRanges st ctx T sc x) ctx k
      = effectiveExactForTask st ctx k := by
  cases sc with
  | recurring =>
    obtain ⟨⟨w, hE⟩, hD, hW, hM⟩ := saveRecurring_data st ctx T x
    refine effective_reads st _ ctx k ?_ (by rw [hW]) (by rw [hM]) (fun dk => by rw [hD])
    rw [hE, jGet_jSet, if_neg hk]
  | week =>
    obtain ⟨hE, hD, ⟨w, hW⟩, hM⟩ := saveWeek_data st ctx T x
    refine effective_reads st _ ctx k (by rw [hE]) ?_ (by rw [hM]) (fun dk => by rw [hD])
    rw [hW, jGet2_jSet2_inner_ne _ _ _ _ _ _ hk]
  | month =>
    obtain ⟨hE, hD, hW, ⟨w, hM⟩⟩ := saveMonth_data st ctx T x
    refine effective_reads st _ ctx k (by rw [hE]) (by rw [hW]) ?_ (fun dk => by rw [hD])
    rw [hM, jGet2_jSet2_inner_ne _ _ _ _ _ _ hk]
  | today =>
    obtain ⟨hW, hM, hE⟩ := saveToday_frame st ctx T x
    exact effective_reads st _ ctx k (by rw [hE]) (by rw [hW]) (by rw [hM])
      (fun dk => saveToday_byDate_reads st ctx T x k hk dk)

/-- A save of task T leaves the occupancy map that excludes T unchanged. -/
theorem occupancy_after_save (st : Store) (ctx : WeekCtx) (sc : Scope) (T : String)
    (x : WeekRanges) :
    buildOccupancyMap (saveRanges st ctx T sc x) ctx T = buildOccupancyMap st ctx T :=
  buildOccupancyMap_reads st _ ctx T (saveRanges_tasks st ctx T sc x)
    (fun k hk => seqForTask_after_save st ctx sc T x k hk)
    (fun k hk => effective_after_save st ctx sc T x k hk)

set_option maxHeartbeats 1000000 in
/-- Claim C2: clipping is a fixed point after persistence. For every store,
task, scope and submitted week, if the clipped week returned by
normalizeAndClip is persisted by saveRanges and then submitted again as
the input of a second save at the same scope, the second save's
normalized-and-clipped week is identical to the first. -/
theorem C2_clip_fixed_point (st : Store) (ctx : WeekCtx) (sc : Scope) (T : String)
    (x : WeekRanges) :
    (normalizeAndClip (saveRanges st ctx T sc x) ctx sc T
        ((normalizeAndClip st ctx sc T x).1)).1
      = (normalizeAndClip st ctx sc T x).1 := by
  have hocc := occupancy_after_save st ctx sc T x
  have hshape : ∀ d : Fin 7, ∀ r ∈ (normalizeAndClip st ctx sc T x).1 d,
      ∃ sN eN : Nat,
        r = { startMin := ((15 * sN : Nat) : Int), endMin := ((15 * eN : Nat) : Int) }
          ∧ sN < eN ∧ eN ≤ 96 := by
    intro d r hr
    have hr' : r ∈ clipDay (buildOccupancyMap st ctx T d) T (normalizeWeek x d) := hr
    rw [clipDay_eq_take] at hr'
    have ht := tidy_take _ _ 4
      (tidy_of_fspec _ _ _ (fspec_sweepRuns
        (okSlot (buildOccupancyMap st ctx T d) T (normalizeWeek x d))))
    obtain ⟨s, e, hre, -, hse, he⟩ := tidy_mem _ _ ht r hr'
    exact ⟨s, e, hre, hse, he⟩
  have hnorm : normalizeWeek ((normalizeAndClip st ctx sc T x).1)
      = (normalizeAndClip st ctx sc T x).1 := normalizeWeek_fix _ hshape
  funext d
  show clipDay (buildOccupancyMap (saveRanges st ctx T sc x) ctx T d) T
      (normalizeWeek ((normalizeAndClip st ctx sc T x).1) d)
    = (normalizeAndClip st ctx sc T x).1 d
  rw [hocc, hnorm]
  show clipDay (buildOccupancyMap st ctx T d) T
      (clipDay (buildOccupancyMap st ctx T d) T (normalizeWeek x d))
    = clipDay (buildOccupancyMap st ctx T d) T (normalizeWeek x d)
  exact clipDay_fixed _ _ _

/-! ## Day invariants of the normalize-and-clip output (claim C8) -/

/-- Claim C8: for every submitted week, the normalize-and-clip output
satisfies per day: every range has both endpoints multiples of 15 with
endMin greater than startMin and within the day; ranges are in strictly
increasing order with a gap between consecutive ranges (touching or
overlapping ranges were merged); at most 4 ranges remain, and they are a
prefix of the full sorted merged run list (the first 4 by start time);
a submitted range wrapping past midnight contributes its rounded tail up
to 1440 to its own day and its rounded head from 0 to the next day modulo
7; a submitted range whose rounded endpoints coincide contributes
nothing; and each normalized day is exactly the concatenation of these
per-range contributions. -/
theorem C8_output_invariants (st : Store) (ctx : WeekCtx) (sc : Scope) (T : String)
    (x : WeekRanges) :
    (∀ d : Fin 7, ∀ r ∈ (normalizeAndClip st ctx sc T x).1 d, ∃ s e : Nat,
        r = { startMin := ((15 * s : Nat) : Int), endMin := ((15 * e : Nat) : Int) } ∧
        s < e ∧ e ≤ 96) ∧
    (∀ d : Fin 7, List.Chain' (fun a b => a.endMin < b.startMin)
        ((normalizeAndClip st ctx sc T x).1 d)) ∧
    (∀ d : Fin 7, ((normalizeAndClip st ctx sc T x).1 d).length ≤ 4) ∧
    (∀ d : Fin 7, (normalizeAndClip st ctx sc T x).1 d
        <+: mergeRanges (stableSortBy (fun r => r.startMin)
              (sweepRuns (okSlot (buildOccupancyMap st ctx T d) T (normalizeWeek x d))))) ∧
    (∀ (d : Fin 7) (r : Range), toInt32 r.endMin < toInt32 r.startMin →
        contrib d d r
          = (if round15 (toInt32 r.startMin) < 1440
             then [{ startMin := round15 (toInt32 r.startMin), endMin := (1440 : Int) }]
             else []) ∧
        contrib d (d + 1) r
          = (if 0 < round15 (toInt32 r.endMin)
             then [{ startMin := (0 : Int), endMin := round15 (toInt32 r.endMin) }]
             else [])) ∧
    (∀ (d dq : Fin 7) (r : Range), toInt32 r.startMin < toInt32 r.endMin →
        round15 (toInt32 r.endMin) = round15 (toInt32 r.startMin) → contrib d dq r = []) ∧
    (∀ dq : Fin 7, normalizeWeek x dq
        = (List.finRange 7).flatMap (fun d => (x d).flatMap (contrib d dq))) := by
  have htd : ∀ d : Fin 7, Tidy 0 ((normalizeAndClip st ctx sc T x).1 d) := by
    intro d
    have he : (normalizeAndClip st ctx sc T x).1 d
        = (sweepRuns (okSlot (buildOccupancyMap st ctx T d) T (normalizeWeek x d))).take 4 :=
      clipDay_eq_take _ _ _
    rw [he]
    exact tidy_take _ _ 4 (tidy_of_fspec _ _ _ (fspec_sweepRuns _))
  have h1440 : round15 (24 * 60) = (1440 : Int) := by decide
  have h0 : round15 0 = (0 : Int) := by decide
  refine ⟨?_, ?_, ?_, ?_, ?_, ?_, ?_⟩
  · intro d r hr
    obtain ⟨s, e, hre, -, hse, he⟩ := tidy_mem _ _ (htd d) r hr
    exact ⟨s, e, hre, hse, he⟩
  · intro d
    exact tidy_chain_gap _ _ (htd d)
  · intro d
    have he : (normalizeAndClip st ctx sc T x).1 d
        = (sweepRuns (okSlot (buildOccupancyMap st ctx T d) T (normalizeWeek x d))).take 4 :=
      clipDay_eq_take _ _ _
    rw [he]
    exact List.length_take_le 4 _
  · intro d
    show (mergeRanges (stableSortBy (fun r => r.startMin)
        (sweepRuns (okSlot (buildOccupancyMap st ctx T d) T (normalizeWeek x d))))).take 4
      <+: mergeRanges (stableSortBy (fun r => r.startMin)
        (sweepRuns (okSlot (buildOccupancyMap st ctx T d) T (normalizeWeek x d))))
    exact List.take_prefix 4 _
  · intro d r hov
    constructor
    · unfold contrib
      rw [if_neg (by omega), if_pos hov, if_pos rfl,
        if_neg (fun h : d = d + 1 => fin7_succ_ne d h.symm), List.append_nil, h1440]
    · unfold contrib
      rw [if_neg (by omega), if_pos hov, if_neg (fin7_succ_ne d), if_pos rfl,
        List.nil_append, h0]
  · intro d dq r hfwd heq
    unfold contrib
    rw [if_pos hfwd]
    by_cases hd : dq = d
    · rw [if_pos hd, if_neg (by omega)]
    · rw [if_neg hd]
  · intro dq
    exact normalizeWeek_day x dq

/-! ## Concrete fixtures for the witnesses and the counterexample -/

/-- A concrete visible-week context: the week of 2025-01-05, the resolved
today being its first day. -/
def Wctx : WeekCtx where
  wkKey := "2025-01-05"
  moKey := "2025-01"
  dateKey := fun d =>
    if d = 0 then "2025-01-05" else if d = 1 then "2025-01-06"
    else if d = 2 then "2025-01-07" else if d = 3 then "2025-01-08"
    else if d = 4 then "2025-01-09" else if d = 5 then "2025-01-10"
    else "2025-01-11"
  todayIndex := 0
  nextDateKey := "2025-01-06"

/-- A concrete store of two tasks with empty recurring templates and no
exceptions or stamps. -/
def Wst : Store where
  tasks := ["a", "b"]
  EXACT := [("a", blankWeekRanges), ("b", blankWeekRanges)]
  byDate := []
  byWeek := []
  byMonth := []
  orderRecurring := []
  orderWeek := []
  orderMonth := []
  saveSeq := 3
  lastScope := []

/-- The store with an existing date exception for task a on today's date. -/
def C5st : Store :=
  { Wst with byDate := [("2025-01-05", [("a", [{ startMin := 0, endMin := 15 }])])] }

/-- The store with an existing date exception for task a on the next date. -/
def C6st : Store :=
  { Wst with byDate := [("2025-01-06", [("a", [{ startMin := 0, endMin := 15 }])])] }

theorem C5_witness :
    jGet2 (saveRanges C5st Wctx "a" Scope.today blankWeekRanges).byDate
        (Wctx.dateKey Wctx.todayIndex) "a" = none ∧
    effectiveExactForTask (saveRanges C5st Wctx "a" Scope.today blankWeekRanges) Wctx "a"
        Wctx.todayIndex
      = effNoDateDay C5st Wctx "a" Wctx.todayIndex := by
  have h := (C5_today_empty_deletes_and_falls_back C5st Wctx "a" blankWeekRanges
    (by decide)).1 (by decide)
  exact ⟨h.1, h.2.2⟩

theorem C6_witness :
    (normalizeAndClip C6st Wctx Scope.today "a" blankWeekRanges).2 = [] ∧
    jGet2 (saveRanges C6st Wctx "a" Scope.today blankWeekRanges).byDate
        Wctx.nextDateKey "a" = none :=
  (C6_next_date_spill_or_delete C6st Wctx "a" blankWeekRanges (by decide)).1 (by decide)

/-- Counterexample to claim C6 as stated: the submitted week is entirely
empty, so step 1 detects no overnight split, yet the today-scope save does
not leave the next calendar date's existing exception for the task
unchanged: it deletes it. -/
theorem C6_counterexample :
    hadOvernightB blankWeekRanges = false ∧
    jGet2 C6st.byDate "2025-01-06" "a" = some [{ startMin := 0, endMin := 15 }] ∧
    jGet2 (saveRanges C6st Wctx "a" Scope.today blankWeekRanges).byDate
        "2025-01-06" "a" = none := by
  refine ⟨by decide, by decide, by decide⟩

theorem C7_witness :
    orderGet (saveRanges Wst Wctx "a" Scope.recurring blankWeekRanges) Wctx
        Scope.recurring "a" = some Wst.saveSeq ∧
    (saveRanges Wst Wctx "a" Scope.recurring blankWeekRanges).saveSeq
      = Wst.saveSeq + 1 := by
  have h := C7_first_save_stamping Wst Wctx "a" Scope.recurring blankWeekRanges (by decide)
  exact h.2.1 (by decide)

end Chrono
